import Mathlib

/-!
# Shallow embedding of `src/credentials_manager.py`

This file embeds the credential-vault engine of the repository
(`CredentialsManager` and the module-level helper `_get_key_length`) as
executable Lean definitions and proves the specification claims about it.

Modelling conventions:
* Python `bytearray` values are `List Nat` with every element `< 256`
  (the bound is enforced exactly where CPython enforces it: building a
  `bytearray` from out-of-range integers raises `ValueError`).
* Python `dict[str, bytearray]` is an insertion-ordered association list
  with unique keys; `dictSet` mirrors `d[k] = v` (replace in place, or
  append a new key at the end).
* `hashlib.sha256(s.encode()).hexdigest()` is an opaque library function;
  the development is parameterised by `H : String → String` standing for
  that hex-digest function.  Theorems that need it assume only what is
  true of every SHA-256 hex digest: 64 lowercase hex characters
  (`IsHexDigest`).  `testHash` is a concrete stand-in used to evaluate
  witnesses.
* `secrets.randbelow`-generated salts are externalised: every operation
  that may draw a fresh random salt takes the drawn bytes as an explicit
  `freshSalt` argument.
* File I/O is externalised: `save` returns the JSON document it would
  write, `load` receives `Option JValue` (`none` = the file does not
  exist, `some j` = the parsed JSON content).
* Python exceptions become constructors of `Err`; each constructor is a
  distinct exception type or a distinct message of the source:
  `invalidArg`/`conflict`/`notFound`/`unauthorized`/`missingField`/
  `byteRange` are the `ValueError`s raised with the corresponding
  messages, `corrupt` is `UnicodeDecodeError`, `typeErrStruct` is the
  `TypeError('Invalid credentials file configuration')`, `typeErrB64`
  the `TypeError` raised by `base64.b64decode` on a non-string value,
  `b64Error` the `binascii.Error` on malformed base64, `fileNotFound`
  the `CredentialsNotFoundError` class, and `keyError` a dict
  `KeyError`.
-/

namespace CredMgr

/-- The distinguishable failures of the engine (see module docstring for the
map from constructors to the Python exceptions/messages of the source). -/
inductive Err where
  | invalidArg
  | conflict
  | notFound
  | unauthorized
  | corrupt
  | typeErrStruct
  | typeErrB64
  | b64Error
  | missingField
  | fileNotFound
  | byteRange
  | keyError
deriving DecidableEq, Repr

/-- Python `bytearray` contents: a list of byte values. -/
abbrev Bytes := List Nat

/-- Dict lookup `m.get(k)` / `m[k]` on an ordered association list. -/
def dictGet {α : Type} : List (String × α) → String → Option α
  | [], _ => none
  | (k, v) :: rest, name => if k = name then some v else dictGet rest name

/-- Dict assignment `m[k] = v`: replace the value of an existing key in
place, otherwise append the new key at the end (Python dict semantics). -/
def dictSet {α : Type} : List (String × α) → String → α → List (String × α)
  | [], name, v => [(name, v)]
  | (k, w) :: rest, name, v =>
      if k = name then (name, v) :: rest else (k, w) :: dictSet rest name v

/-- The key view `m.keys()` of the ordered dict. -/
def dictKeys {α : Type} (m : List (String × α)) : List String := m.map Prod.fst

/-- `bytearray(map(ord, s))`: the code points of a string's characters. -/
def strBytes (s : String) : Bytes := s.toList.map Char.toNat

/-- `key[i % len(key)]` (with byte `0` as the out-of-range default; real
vault keys are never empty, so the default is never consulted there). -/
def keyAt (key : Bytes) (i : Nat) : Nat := key.getD (i % key.length) 0

/-- The value of a hexadecimal digit character, as accepted by Python
`int(…, 16)` (canonical digests use only `0-9a-f`). -/
def hexVal (c : Char) : Option Nat :=
  if '0' ≤ c ∧ c ≤ '9' then some (c.toNat - '0'.toNat)
  else if 'a' ≤ c ∧ c ≤ 'f' then some (c.toNat - 'a'.toNat + 10)
  else if 'A' ≤ c ∧ c ≤ 'F' then some (c.toNat - 'A'.toNat + 10)
  else none

/-- `int(s, 16)`: parse a hexadecimal numeral; `none` models the
`ValueError` Python raises on an empty or non-hexadecimal string. -/
def parseHexList (cs : List Char) : Option Nat :=
  if cs.isEmpty then none
  else cs.foldl (fun acc c =>
    match acc, hexVal c with
    | some a, some d => some (a * 16 + d)
    | _, _ => none) (some 0)

/-- `clip` of `_get_key_length`: `MIN + (n % (MAX - MIN + 1))` with
`MIN = 0x10`, `MAX = 0x40`. -/
def clip (n : Nat) : Nat := 0x10 + n % (0x40 - 0x10 + 1)

/-- `_get_key_length`, with the host-fingerprint string (built from
`platform` data) taken as the input and the SHA-256 hex-digest function
taken as the parameter `H`: hash the fingerprint, parse hex characters
0-3 and 4-7 as 16-bit integers, and clip each into `[16, 64]`. -/
def getKeyLength (H : String → String) (fingerprint : String) : Option (Nat × Nat) :=
  let hashHex := H fingerprint
  match parseHexList (hashHex.toList.take 4),
        parseHexList ((hashHex.toList.drop 4).take 4) with
  | some keyLen, some saltLen => some (clip keyLen, clip saltLen)
  | _, _ => none

/-- What is true of every `hashlib.sha256(...).hexdigest()` result:
64 characters, each a lowercase hexadecimal digit. -/
def IsHexDigest (s : String) : Prop :=
  s.length = 64 ∧ ∀ c ∈ s.toList, ('0' ≤ c ∧ c ≤ '9') ∨ ('a' ≤ c ∧ c ≤ 'f')

/-- A concrete stand-in hex-digest function used to evaluate witnesses of
theorems that are parameterised by the digest function `H`. -/
def testHash (s : String) : String :=
  String.mk (List.replicate 64 (if s.length % 2 = 0 then 'a' else 'b'))

theorem length_testHash (s : String) : (testHash s).length = 64 := by
  show (String.mk (List.replicate 64 _)).length = 64
  rw [String.length_mk, List.length_replicate]

theorem testHash_isHexDigest (s : String) : IsHexDigest (testHash s) := by
  refine ⟨length_testHash s, ?_⟩
  intro c hc
  simp only [testHash, String.toList] at hc
  have h := List.eq_of_mem_replicate hc
  split at h <;> subst h <;> right <;> exact ⟨by decide, by decide⟩

/-- `bytearray(map(f, enumerate(data)))` of `store`:
`cipher[i] = ord(data[i]) ^ key[i % len(key)]`. -/
def encryptStr (key : Bytes) (data : String) : Bytes :=
  data.toList.enum.map (fun x => x.2.toNat ^^^ keyAt key x.1)

/-- `bytearray(map(f, enumerate(cipher)))` of `get`:
`plain[i] = cipher[i] ^ key[i % len(key)]`. -/
def decryptBytes (key : Bytes) (cipher : Bytes) : Bytes :=
  cipher.enum.map (fun x => x.2 ^^^ keyAt key x.1)

/-- Is `b` a UTF-8 continuation byte (`0x80…0xBF`)? -/
def isCont (b : Nat) : Bool := 0x80 ≤ b && b < 0xC0

/-- Admissible second byte after a three-byte lead `b0` (strict UTF-8:
no overlong encodings, no surrogates). -/
def cont3Ok (b0 b1 : Nat) : Bool :=
  if b0 = 0xE0 then 0xA0 ≤ b1 && b1 < 0xC0
  else if b0 = 0xED then 0x80 ≤ b1 && b1 < 0xA0
  else isCont b1

/-- Admissible second byte after a four-byte lead `b0` (strict UTF-8:
no overlong encodings, nothing above `U+10FFFF`). -/
def cont4Ok (b0 b1 : Nat) : Bool :=
  if b0 = 0xF0 then 0x90 ≤ b1 && b1 < 0xC0
  else if b0 = 0xF4 then 0x80 ≤ b1 && b1 < 0x90
  else isCont b1

/-- Decode the continuation of a two-byte UTF-8 sequence with lead `b0`:
the code point and the remaining bytes. -/
def utf8Cont1 (b0 : Nat) : List Nat → Option (Nat × List Nat)
  | b1 :: t1 =>
    if isCont b1 then some (0x40 * (b0 - 0xC0) + (b1 - 0x80), t1) else none
  | [] => none

/-- Decode the continuation of a three-byte UTF-8 sequence with lead `b0`. -/
def utf8Cont2 (b0 : Nat) : List Nat → Option (Nat × List Nat)
  | b1 :: b2 :: t2 =>
    if cont3Ok b0 b1 && isCont b2 then
      some (0x1000 * (b0 - 0xE0) + 0x40 * (b1 - 0x80) + (b2 - 0x80), t2)
    else none
  | _ => none

/-- Decode the continuation of a four-byte UTF-8 sequence with lead `b0`. -/
def utf8Cont3 (b0 : Nat) : List Nat → Option (Nat × List Nat)
  | b1 :: b2 :: b3 :: t3 =>
    if cont4Ok b0 b1 && isCont b2 && isCont b3 then
      some (0x40000 * (b0 - 0xF0) + 0x1000 * (b1 - 0x80)
        + 0x40 * (b2 - 0x80) + (b3 - 0x80), t3)
    else none
  | _ => none

/-- Decode one UTF-8 scalar starting at lead byte `b0` (strict UTF-8: stray
continuation bytes, truncated or overlong sequences, surrogates and values
above `U+10FFFF` are rejected, as by Python `bytes.decode('utf-8')`). -/
def utf8Step (b0 : Nat) (t0 : List Nat) : Option (Nat × List Nat) :=
  if b0 < 0x80 then some (b0, t0)
  else if b0 < 0xC2 then none
  else if b0 < 0xE0 then utf8Cont1 b0 t0
  else if b0 < 0xF0 then utf8Cont2 b0 t0
  else if b0 < 0xF5 then utf8Cont3 b0 t0
  else none

/-- Worker for `utf8DecodeList`: the fuel is an upper bound on the number
of scalars left, consumed one unit per decoded scalar (each scalar uses at
least one byte, so `bs.length` fuel always suffices). -/
def utf8DecodeAux : Nat → List Nat → Option (List Char)
  | _, [] => some []
  | 0, _ :: _ => none
  | fuel + 1, b0 :: t0 =>
    match utf8Step b0 t0 with
    | none => none
    | some (cp, rest) => (utf8DecodeAux fuel rest).map (Char.ofNat cp :: ·)

/-- Strict UTF-8 decoding of a byte list, as Python `bytes.decode('utf-8')`:
`none` models `UnicodeDecodeError`. -/
def utf8DecodeList (bs : List Nat) : Option (List Char) :=
  utf8DecodeAux bs.length bs

/-- The standard base64 alphabet of RFC 4648 used by `base64.b64encode`. -/
def b64Alphabet : List Char :=
  "ABCDEFGHIJKLMNOPQRSTUVWXYZabcdefghijklmnopqrstuvwxyz0123456789+/".toList

/-- The character for a sextet value. -/
def b64Char (n : Nat) : Char := b64Alphabet.getD n 'A'

/-- The sextet value of an alphabet character (`none` for anything else,
including the padding character). -/
def b64Index (c : Char) : Option Nat := b64Alphabet.indexOf? c

/-- `base64.b64encode` grouped in three-byte chunks. -/
def b64EncodeChunks : Bytes → List Char
  | a :: b :: c :: rest =>
      b64Char (a / 4) :: b64Char (a % 4 * 16 + b / 16) ::
      b64Char (b % 16 * 4 + c / 64) :: b64Char (c % 64) :: b64EncodeChunks rest
  | [a, b] => [b64Char (a / 4), b64Char (a % 4 * 16 + b / 16), b64Char (b % 16 * 4), '=']
  | [a] => [b64Char (a / 4), b64Char (a % 4 * 16), '=', '=']
  | [] => []

/-- `base64.b64encode(v).decode('utf-8')` as used by `save`. -/
def b64Encode (bs : Bytes) : String := String.mk (b64EncodeChunks bs)

/-- `base64.b64decode` on canonically padded input, grouped in four-character
chunks (padding only in the final chunk); `none` models the
`binascii.Error` on malformed input. -/
def b64DecodeChunks : List Char → Option Bytes
  | c0 :: c1 :: c2 :: c3 :: rest =>
      if c2 = '=' ∧ c3 = '=' ∧ rest = [] then do
        let s0 ← b64Index c0
        let s1 ← b64Index c1
        pure [s0 * 4 + s1 / 16]
      else if c3 = '=' ∧ rest = [] then do
        let s0 ← b64Index c0
        let s1 ← b64Index c1
        let s2 ← b64Index c2
        pure [s0 * 4 + s1 / 16, s1 % 16 * 16 + s2 / 4]
      else do
        let s0 ← b64Index c0
        let s1 ← b64Index c1
        let s2 ← b64Index c2
        let s3 ← b64Index c3
        let tail ← b64DecodeChunks rest
        pure ((s0 * 4 + s1 / 16) :: (s1 % 16 * 16 + s2 / 4) :: (s2 % 4 * 64 + s3) :: tail)
  | [] => some []
  | _ => none

/-- `base64.b64decode` on a string, as used by `load`. -/
def b64Decode (s : String) : Option Bytes := b64DecodeChunks s.toList

/-- The state of a `CredentialsManager` object: the private fields
`__mapping` (name → ciphertext bytes, metadata entries included) and
`__key`. -/
structure Vault where
  mapping : List (String × Bytes)
  key : Bytes
deriving DecidableEq, Repr

/-- `CredentialsManager.store`.  The `TypeError` branches for non-string
arguments are unrepresentable here (arguments are statically strings);
the remaining control flow is translated exactly.  `bytearray(...)`
raises `ValueError` as soon as a XOR result is out of byte range, before
`self.__mapping[name]` is assigned, so a failing call leaves the mapping
untouched; `Err.byteRange` models that. -/
def store (v : Vault) (name data : String) (overwrite : Bool) : Except Err Vault :=
  if name.length = 0 then .error .invalidArg
  else if data.length = 0 then .error .invalidArg
  else if (dictGet v.mapping name).isSome && !overwrite then .error .conflict
  else if (encryptStr v.key data).all (· < 0x100) then
    .ok { v with mapping := dictSet v.mapping name (encryptStr v.key data) }
  else .error .byteRange

/-- `CredentialsManager.get`: validate the name, XOR-decrypt the stored
bytes with the current key and decode them as UTF-8 (`Err.corrupt` is the
`UnicodeDecodeError` of `bytearray.decode`). -/
def get (v : Vault) (name : String) : Except Err String :=
  if name.length = 0 then .error .invalidArg
  else
    match dictGet v.mapping name with
    | none => .error .notFound
    | some cipher =>
      match utf8DecodeList (decryptBytes v.key cipher) with
      | some cs => .ok (String.mk cs)
      | none => .error .corrupt

/-- Abbreviation for the two reserved metadata names. -/
def isMeta (k : String) : Prop := k = "__cm_password__" ∨ k = "__salt__"

instance (k : String) : Decidable (isMeta k) := by
  unfold isMeta
  infer_instance

/-- The dict comprehension of `_update_encryptions`:
`{k: self.get(k) for k in self.__mapping.keys() if k not in (meta)}`,
iterated over the given key list; the first failing `get` raises. -/
def getAll (v : Vault) : List String → Except Err (List (String × String))
  | [] => .ok []
  | k :: rest =>
    if isMeta k then getAll v rest
    else
      match get v k with
      | .error e => .error e
      | .ok s => Except.map (fun l => (k, s) :: l) (getAll v rest)

/-- The re-encryption loop of `_update_encryptions`:
`for name, data in original.items(): self.store(name, data, overwrite=True)`.
A raised exception leaves the partially re-encrypted state behind, so the
state reached so far is returned alongside the failure. -/
def storeAll (v : Vault) : List (String × String) → Except Err Unit × Vault
  | [] => (.ok (), v)
  | (name, data) :: rest =>
    match store v name data true with
    | .error e => (.error e, v)
    | .ok v1 => storeAll v1 rest

/-- `salt = salt or bytearray([secrets.randbelow(0x100) for _ in SALT_RANGE])`:
a missing or empty (falsy) salt argument is replaced by the freshly drawn
random bytes. -/
def resolveSalt (saltArg : Option Bytes) (freshSalt : Bytes) : Bytes :=
  match saltArg with
  | some s => if s.length = 0 then freshSalt else s
  | none => freshSalt

/-- The key derivation of `_update_encryptions`:
`key = bytearray(map(lambda i: pswd[i % len(pswd)] ^ salt[i % len(salt)], KEY_RANGE))`. -/
def mkKey (keyLength : Nat) (pswd salt : Bytes) : Bytes :=
  (List.range keyLength).map
    (fun i => pswd.getD (i % pswd.length) 0 ^^^ salt.getD (i % salt.length) 0)

/-- `CredentialsManager._update_encryptions`.  `H` is the SHA-256
hex-digest function, `keyLength` the process-wide constant
`len(__KEY_RANGE)`, and `freshSalt` the bytes `secrets.randbelow` would
draw.  Mirrors the source order of effects: hash the password unless it
already is a digest, resolve the salt, derive the key
(`pswd[i % len(pswd)] ^ salt[i % len(salt)]` for `i in KEY_RANGE`),
decrypt every non-metadata entry under the *current* key, install the new
key, re-store every plaintext, then update the two metadata entries. -/
def updateEncryptions (H : String → String) (keyLength : Nat) (v : Vault)
    (password : String) (saltArg : Option Bytes) (pswdIsDigest : Bool)
    (freshSalt : Bytes) : Except Err Unit × Vault :=
  let pswdHex := if pswdIsDigest then password else H password
  let pswd := strBytes pswdHex
  let salt := resolveSalt saltArg freshSalt
  let key := mkKey keyLength pswd salt
  match getAll v (dictKeys v.mapping) with
  | .error e => (.error e, v)
  | .ok original =>
    let v1 : Vault := { v with key := key }
    match storeAll v1 original with
    | (.error e, v2) => (.error e, v2)
    | (.ok _, v2) =>
      (.ok (), { v2 with
        mapping := dictSet (dictSet v2.mapping "__cm_password__" pswd) "__salt__" salt })

/-- `CredentialsManager.__init__`: start from an empty mapping (the
`__key` attribute is not yet set, but it is never read on an empty
mapping) and run `_update_encryptions`. -/
def mkVault (H : String → String) (keyLength : Nat) (password : String)
    (saltArg : Option Bytes) (pswdIsDigest : Bool) (freshSalt : Bytes) :
    Except Err Unit × Vault :=
  updateEncryptions H keyLength { mapping := [], key := [] }
    password saltArg pswdIsDigest freshSalt

/-- `CredentialsManager.update_password`: hash the old password, compare
its byte sequence against `self.__mapping['__cm_password__']`
(`Err.keyError` models the `KeyError` if that entry were absent), raise
`ValueError` (`Err.unauthorized`) on mismatch — before any mutation —
and otherwise re-key via `_update_encryptions` with a fresh random salt. -/
def updatePassword (H : String → String) (keyLength : Nat) (v : Vault)
    (oldPassword newPassword : String) (freshSalt : Bytes) :
    Except Err Unit × Vault :=
  let oldPswd := strBytes (H oldPassword)
  match dictGet v.mapping "__cm_password__" with
  | none => (.error .keyError, v)
  | some stored =>
    if oldPswd ≠ stored then (.error .unauthorized, v)
    else updateEncryptions H keyLength v newPassword none false freshSalt

/-- The JSON values `json.load` can produce for the credentials file. -/
inductive JValue where
  | jnull
  | jbool (b : Bool)
  | jnum (n : Int)
  | jstr (s : String)
  | jarr (elems : List JValue)
  | jobj (entries : List (String × JValue))

/-- Is the parsed JSON document an object (a Python `dict`)? -/
def JValue.isObj : JValue → Bool
  | .jobj _ => true
  | _ => false

/-- `CredentialsManager.save`: validate the filename (`not filename` is
true for the empty string) and serialize the whole mapping, base64-coding
every byte sequence.  The JSON document that `json.dump` would write is
returned in place of the file side effect. -/
def save (v : Vault) (filename : String) : Except Err JValue :=
  if filename.length = 0 then .error .invalidArg
  else .ok (JValue.jobj (v.mapping.map (fun kv => (kv.1, JValue.jstr (b64Encode kv.2)))))

/-- The decode comprehension of `load`:
`{k: bytearray(base64.b64decode(v)) for k, v in data.items()}`; a
non-string value raises `TypeError` (`Err.typeErrB64`), malformed base64
raises `binascii.Error` (`Err.b64Error`). -/
def decodeEntries : List (String × JValue) → Except Err (List (String × Bytes))
  | [] => .ok []
  | (k, JValue.jstr s) :: rest =>
    match b64Decode s with
    | some bs => Except.map (fun l => (k, bs) :: l) (decodeEntries rest)
    | none => .error .b64Error
  | _ :: _ => .error .typeErrB64

/-- `CredentialsManager.load`.  The file system is externalised:
`file = none` means the file does not exist (`open` raises
`FileNotFoundError`, re-raised as `CredentialsNotFoundError` =
`Err.fileNotFound`); `file = some j` means the file parsed to the JSON
value `j`.  The checks follow the source order: filename validation,
existence, `isinstance(data, dict)`, presence of the two metadata keys,
base64-decoding of every value, digest comparison; then the vault is
rebuilt from the stored digest and salt and its mapping replaced
wholesale. -/
def load (H : String → String) (keyLength : Nat) (filename : String)
    (file : Option JValue) (password : String) (freshSalt : Bytes) :
    Except Err Vault :=
  if filename.length = 0 then .error .invalidArg
  else
    let givenPswd := strBytes (H password)
    match file with
    | none => .error .fileNotFound
    | some json =>
      match json with
      | .jobj entries =>
        if (dictGet entries "__cm_password__").isNone
            || (dictGet entries "__salt__").isNone then .error .missingField
        else
          match decodeEntries entries with
          | .error e => .error e
          | .ok mappings =>
            match dictGet mappings "__cm_password__" with
            | none => .error .keyError
            | some loadedPswd =>
              if loadedPswd ≠ givenPswd then .error .unauthorized
              else
                match utf8DecodeList loadedPswd with
                | none => .error .corrupt
                | some pwChars =>
                  match dictGet mappings "__salt__" with
                  | none => .error .keyError
                  | some salt =>
                    match mkVault H keyLength (String.mk pwChars) (some salt) true freshSalt with
                    | (.error e, _) => .error e
                    | (.ok _, obj) => .ok { obj with mapping := mappings }
      | _ => .error .typeErrStruct

instance {ε α : Type} [DecidableEq ε] [DecidableEq α] : DecidableEq (Except ε α) :=
  fun x y =>
    match x, y with
    | .ok a, .ok b =>
      if h : a = b then isTrue (by rw [h]) else isFalse (by intro hc; cases hc; exact h rfl)
    | .error a, .error b =>
      if h : a = b then isTrue (by rw [h]) else isFalse (by intro hc; cases hc; exact h rfl)
    | .ok _, .error _ => isFalse (by intro hc; cases hc)
    | .error _, .ok _ => isFalse (by intro hc; cases hc)

/-! ## Arithmetic and list helper lemmas -/

theorem xor_lt_256 {a b : Nat} (ha : a < 256) (hb : b < 256) : a ^^^ b < 256 := by
  have := Nat.xor_lt_two_pow (n := 8) ha hb
  simpa using this

theorem xor_ge_256 {a b : Nat} (hb : b < 256) (ha : 256 ≤ a) : 256 ≤ a ^^^ b := by
  by_contra hlt
  push_neg at hlt
  have : a < 256 := by
    have h2 := Nat.xor_lt_two_pow (n := 8) (by simpa using hlt) (by simpa using hb)
    simpa [Nat.xor_cancel_right] using h2
  omega

theorem getD_lt_256 {l : Bytes} (h : ∀ b ∈ l, b < 256) (i : Nat) : l.getD i 0 < 256 := by
  by_cases hi : i < l.length
  · rw [List.getD_eq_getElem l 0 hi]
    exact h _ (l.getElem_mem hi)
  · rw [List.getD_eq_default l 0 (by omega)]
    omega

theorem keyAt_lt_256 {key : Bytes} (h : ∀ b ∈ key, b < 256) (i : Nat) :
    keyAt key i < 256 := getD_lt_256 h _

theorem length_encryptStr (key : Bytes) (d : String) :
    (encryptStr key d).length = d.toList.length := by
  simp [encryptStr, List.enum_length]

theorem getElem?_encryptStr (key : Bytes) (d : String) (i : Nat) :
    (encryptStr key d)[i]? = d.toList[i]?.map (fun c => c.toNat ^^^ keyAt key i) := by
  simp only [encryptStr, List.getElem?_map, List.getElem?_enum]
  cases d.toList[i]? <;> rfl

theorem getElem?_decryptBytes (key : Bytes) (bs : Bytes) (i : Nat) :
    (decryptBytes key bs)[i]? = bs[i]?.map (fun b => b ^^^ keyAt key i) := by
  simp only [decryptBytes, List.getElem?_map, List.getElem?_enum]
  cases bs[i]? <;> rfl

/-- Decrypting with the key that encrypted recovers the code points,
with no assumption on byte bounds (XOR is an involution on `Nat`). -/
theorem decrypt_encrypt (key : Bytes) (d : String) :
    decryptBytes key (encryptStr key d) = d.toList.map Char.toNat := by
  apply List.ext_getElem?
  intro i
  rw [getElem?_decryptBytes, getElem?_encryptStr, List.getElem?_map]
  cases d.toList[i]? with
  | none => rfl
  | some c => simp [Nat.xor_cancel_right]

theorem mem_encryptStr_lt_256 {key : Bytes} {d : String}
    (hkey : ∀ b ∈ key, b < 256) (hd : ∀ c ∈ d.toList, c.toNat < 256) :
    ∀ b ∈ encryptStr key d, b < 256 := by
  intro b hb
  simp only [encryptStr, List.mem_map] at hb
  obtain ⟨⟨i, c⟩, hmem, rfl⟩ := hb
  have hc : c ∈ d.toList := List.get?_mem (List.mem_enum_iff_get?.1 hmem)
  exact xor_lt_256 (hd c hc) (keyAt_lt_256 hkey i)

/-! ## Dict lemmas -/

theorem dictGet_dictSet_self {α : Type} (m : List (String × α)) (k : String) (v : α) :
    dictGet (dictSet m k v) k = some v := by
  induction m with
  | nil => simp [dictGet, dictSet]
  | cons kv rest ih =>
    by_cases h : kv.1 = k
    · simp [dictSet, dictGet, h]
    · simp [dictSet, dictGet, h, ih]

theorem dictGet_dictSet_ne {α : Type} (m : List (String × α)) {k k' : String} (v : α)
    (h : k' ≠ k) : dictGet (dictSet m k v) k' = dictGet m k' := by
  have h' : ¬(k = k') := fun hh => h hh.symm
  induction m with
  | nil => simp [dictGet, dictSet, h']
  | cons kv rest ih =>
    rcases kv with ⟨k0, v0⟩
    by_cases hk : k0 = k
    · subst hk
      simp [dictSet, dictGet, h']
    · by_cases hk' : k0 = k'
      · simp [dictSet, dictGet, hk, hk', h]
      · simp [dictSet, dictGet, hk, hk', ih]

theorem dictKeys_dictSet_mem {α : Type} {m : List (String × α)} {k : String}
    (h : k ∈ dictKeys m) (v : α) : dictKeys (dictSet m k v) = dictKeys m := by
  induction m with
  | nil => simp [dictKeys] at h
  | cons kv rest ih =>
    rcases kv with ⟨k0, v0⟩
    by_cases hk : k0 = k
    · subst hk
      simp [dictSet, dictKeys]
    · have hrest : k ∈ dictKeys rest := by
        simp only [dictKeys, List.map_cons, List.mem_cons] at h
        rcases h with h | h
        · exact absurd h.symm hk
        · exact h
      have hih := ih hrest
      simp only [dictSet, hk, if_false, dictKeys, List.map_cons]
      simp only [dictKeys] at hih
      rw [hih]

theorem mem_dictKeys_iff_isSome {α : Type} (m : List (String × α)) (k : String) :
    k ∈ dictKeys m ↔ (dictGet m k).isSome := by
  induction m with
  | nil => simp [dictKeys, dictGet]
  | cons kv rest ih =>
    rcases kv with ⟨k0, v0⟩
    by_cases hk : k0 = k
    · subst hk
      simp [dictKeys, dictGet]
    · have hcons : dictKeys ((k0, v0) :: rest) = k0 :: dictKeys rest := rfl
      have hg : dictGet ((k0, v0) :: rest) k = dictGet rest k := by
        simp [dictGet, hk]
      rw [hcons, hg, List.mem_cons, ← ih]
      constructor
      · rintro (h | h)
        · exact absurd h.symm hk
        · exact h
      · exact Or.inr

theorem dictGet_mem {α : Type} {m : List (String × α)} {k : String} {v : α}
    (h : dictGet m k = some v) : (k, v) ∈ m := by
  induction m with
  | nil => simp [dictGet] at h
  | cons kv rest ih =>
    rcases kv with ⟨k0, v0⟩
    by_cases hk : k0 = k
    · subst hk
      simp only [dictGet, if_pos rfl] at h
      cases h
      exact List.mem_cons_self _ _
    · simp only [dictGet, hk, if_false] at h
      exact List.mem_cons_of_mem _ (ih h)

/-! ## UTF-8 and character lemmas -/

theorem toNat_ofNat_ascii {b : Nat} (h : b < 0x80) : (Char.ofNat b).toNat = b := by
  have hv : b.isValidChar := Or.inl (by omega)
  rw [Char.ofNat, dif_pos hv]
  simp [Char.ofNatAux, Char.toNat, UInt32.toNat, BitVec.toNat_ofNatLt]

/-- ASCII byte lists decode to exactly their characters. -/
theorem utf8DecodeList_ascii {bs : Bytes} (h : ∀ b ∈ bs, b < 0x80) :
    utf8DecodeList bs = some (bs.map Char.ofNat) := by
  induction bs with
  | nil => rfl
  | cons b t ih =>
    have hb : b < 0x80 := h b (List.mem_cons_self b t)
    have ht : ∀ x ∈ t, x < 0x80 := fun x hx => h x (List.mem_cons_of_mem b hx)
    show utf8DecodeAux (t.length + 1) (b :: t) = _
    rw [utf8DecodeAux]
    rw [show utf8Step b t = some (b, t) from by rw [utf8Step, if_pos hb]]
    show (utf8DecodeAux t.length t).map (Char.ofNat b :: ·) = _
    rw [show utf8DecodeAux t.length t = utf8DecodeList t from rfl, ih ht]
    rfl

theorem map_toNat_map_ofNat (l : List Char) :
    (l.map Char.toNat).map Char.ofNat = l := by
  rw [List.map_map]
  have : Char.ofNat ∘ Char.toNat = id := by
    funext c
    exact Char.ofNat_toNat c
  rw [this, List.map_id]

theorem strBytes_mk_map_ofNat {bs : Bytes} (h : ∀ b ∈ bs, b < 0x80) :
    strBytes (String.mk (bs.map Char.ofNat)) = bs := by
  show ((String.mk (bs.map Char.ofNat)).toList).map Char.toNat = bs
  have htl : (String.mk (bs.map Char.ofNat)).toList = bs.map Char.ofNat := rfl
  rw [htl, List.map_map]
  have : ∀ b ∈ bs, (Char.toNat ∘ Char.ofNat) b = id b := by
    intro b hb
    exact toNat_ofNat_ascii (h b hb)
  rw [List.map_congr_left this, List.map_id]

theorem string_mk_toList (s : String) : String.mk s.toList = s := rfl

/-! ## store/get lemmas -/

theorem store_ok_iff {v : Vault} {name data : String} {overwrite : Bool} {v' : Vault} :
    store v name data overwrite = .ok v' ↔
      (name.length ≠ 0 ∧ data.length ≠ 0 ∧
       (dictGet v.mapping name = none ∨ overwrite = true) ∧
       (∀ b ∈ encryptStr v.key data, b < 0x100) ∧
       v' = { v with mapping := dictSet v.mapping name (encryptStr v.key data) }) := by
  unfold store
  split_ifs with h1 h2 h3 h4
  · simp [h1]
  · simp [h2]
  · have hcond : ¬(dictGet v.mapping name = none ∨ overwrite = true) := by
      rw [Bool.and_eq_true] at h3
      rcases h3 with ⟨hs, hn⟩
      rw [Bool.not_eq_true'] at hn
      rcases Option.isSome_iff_exists.1 hs with ⟨x, hx⟩
      simp [hx, hn]
    simp [hcond]
  · have hall : ∀ b ∈ encryptStr v.key data, b < 0x100 := by
      intro b hb
      simpa using List.all_eq_true.1 h4 b hb
    have hcond : dictGet v.mapping name = none ∨ overwrite = true := by
      rw [Bool.not_eq_true, Bool.and_eq_false_iff] at h3
      rcases h3 with h | h
      · exact Or.inl (Option.not_isSome_iff_eq_none.1 (by simp [h]))
      · exact Or.inr (by simpa using h)
    simp only [Except.ok.injEq]
    constructor
    · intro h
      exact ⟨h1, h2, hcond, hall, h.symm⟩
    · rintro ⟨_, _, _, _, rfl⟩
      rfl
  · have : ¬(∀ b ∈ encryptStr v.key data, b < 0x100) := by
      intro hc
      exact h4 (List.all_eq_true.2 fun b hb => by simpa using hc b hb)
    simp [this]

/-- A successful `store` followed by `get` of the same name returns the
stored string, provided every stored character is ASCII (the per-character
XOR cipher only round-trips through UTF-8 for single-byte characters). -/
theorem store_get_roundtrip {v : Vault} {name data : String} {overwrite : Bool} {v' : Vault}
    (hok : store v name data overwrite = .ok v')
    (hascii : ∀ c ∈ data.toList, c.toNat < 0x80) :
    get v' name = .ok data := by
  obtain ⟨hn, _, _, _, rfl⟩ := store_ok_iff.1 hok
  unfold get
  rw [if_neg hn]
  simp only [dictGet_dictSet_self]
  rw [decrypt_encrypt]
  have hlt : ∀ b ∈ data.toList.map Char.toNat, b < 0x80 := by
    intro b hb
    obtain ⟨c, hc, rfl⟩ := List.mem_map.1 hb
    exact hascii c hc
  rw [utf8DecodeList_ascii hlt, map_toNat_map_ofNat]
  rfl

/-- Inversion of a successful `get`: the name is non-empty and maps to a
ciphertext that decrypts-and-decodes to the result. -/
theorem get_ok_inversion {v : Vault} {name s : String}
    (h : get v name = .ok s) :
    name.length ≠ 0 ∧ ∃ cipher, dictGet v.mapping name = some cipher ∧
      utf8DecodeList (decryptBytes v.key cipher) = some s.toList := by
  unfold get at h
  split at h
  · cases h
  · refine ⟨by omega, ?_⟩
    split at h
    · cases h
    · rename_i cipher hcipher
      refine ⟨cipher, hcipher, ?_⟩
      split at h
      · rename_i cs hcs
        cases h
        exact hcs
      · cases h

/-! ## Base64 lemmas -/

theorem b64Index_b64Char : ∀ s, s < 64 → b64Index (b64Char s) = some s := by decide

theorem b64Char_ne_pad : ∀ s, s < 64 → b64Char s ≠ '=' := by decide

theorem b64_chunks_roundtrip :
    ∀ bs : Bytes, (∀ b ∈ bs, b < 0x100) →
      b64DecodeChunks (b64EncodeChunks bs) = some bs
  | [] => fun _ => rfl
  | [a] => fun h => by
    have ha : a < 256 := h a (by simp)
    have h0 := b64Index_b64Char (a / 4) (by omega)
    have h1 := b64Index_b64Char (a % 4 * 16) (by omega)
    show b64DecodeChunks [b64Char (a / 4), b64Char (a % 4 * 16), '=', '='] = some [a]
    rw [b64DecodeChunks, if_pos ⟨rfl, rfl, rfl⟩]
    simp [h0, h1]
    omega
  | [a, b] => fun h => by
    have ha : a < 256 := h a (by simp)
    have hb : b < 256 := h b (by simp)
    have h0 := b64Index_b64Char (a / 4) (by omega)
    have h1 := b64Index_b64Char (a % 4 * 16 + b / 16) (by omega)
    have h2 := b64Index_b64Char (b % 16 * 4) (by omega)
    have hne : b64Char (b % 16 * 4) ≠ '=' := b64Char_ne_pad _ (by omega)
    show b64DecodeChunks
        [b64Char (a / 4), b64Char (a % 4 * 16 + b / 16), b64Char (b % 16 * 4), '='] =
      some [a, b]
    rw [b64DecodeChunks, if_neg (by rintro ⟨hc, -⟩; exact hne hc), if_pos ⟨rfl, rfl⟩]
    simp [h0, h1, h2]
    omega
  | a :: b :: c :: rest => fun h => by
    have ha : a < 256 := h a (by simp)
    have hb : b < 256 := h b (by simp)
    have hc : c < 256 := h c (by simp)
    have hrest : ∀ x ∈ rest, x < 0x100 := fun x hx => h x (by simp [hx])
    have ih := b64_chunks_roundtrip rest hrest
    have h0 := b64Index_b64Char (a / 4) (by omega)
    have h1 := b64Index_b64Char (a % 4 * 16 + b / 16) (by omega)
    have h2 := b64Index_b64Char (b % 16 * 4 + c / 64) (by omega)
    have h3 := b64Index_b64Char (c % 64) (by omega)
    have hne2 : b64Char (b % 16 * 4 + c / 64) ≠ '=' := b64Char_ne_pad _ (by omega)
    have hne3 : b64Char (c % 64) ≠ '=' := b64Char_ne_pad _ (by omega)
    show b64DecodeChunks
        (b64Char (a / 4) :: b64Char (a % 4 * 16 + b / 16) ::
         b64Char (b % 16 * 4 + c / 64) :: b64Char (c % 64) :: b64EncodeChunks rest) =
      some (a :: b :: c :: rest)
    rw [b64DecodeChunks, if_neg (by rintro ⟨hc2, -⟩; exact hne2 hc2),
      if_neg (by rintro ⟨hc3, -⟩; exact hne3 hc3)]
    simp [h0, h1, h2, h3, ih]
    omega

theorem b64_roundtrip {bs : Bytes} (h : ∀ b ∈ bs, b < 0x100) :
    b64Decode (b64Encode bs) = some bs := by
  show b64DecodeChunks (String.mk (b64EncodeChunks bs)).toList = some bs
  rw [show (String.mk (b64EncodeChunks bs)).toList = b64EncodeChunks bs from rfl]
  exact b64_chunks_roundtrip bs h

/-- Decoding the serialized form of a mapping recovers it exactly. -/
theorem decodeEntries_map_b64 :
    ∀ m : List (String × Bytes), (∀ kv ∈ m, ∀ b ∈ kv.2, b < 0x100) →
      decodeEntries (m.map (fun kv => (kv.1, JValue.jstr (b64Encode kv.2)))) = .ok m
  | [] => fun _ => rfl
  | (k, bs) :: rest => fun h => by
    have hbs : ∀ b ∈ bs, b < 0x100 := h (k, bs) (by simp)
    have hrest : ∀ kv ∈ rest, ∀ b ∈ kv.2, b < 0x100 := fun kv hkv => h kv (by simp [hkv])
    show decodeEntries ((k, JValue.jstr (b64Encode bs)) ::
      rest.map (fun kv => (kv.1, JValue.jstr (b64Encode kv.2)))) = .ok ((k, bs) :: rest)
    rw [decodeEntries, b64_roundtrip hbs, decodeEntries_map_b64 rest hrest]
    rfl

/-! ## getAll / storeAll lemmas -/

theorem getAll_ok {v : Vault} :
    ∀ ks : List String,
      (∀ k ∈ ks, ¬isMeta k → ∃ s, get v k = .ok s) →
      ∃ ps, getAll v ks = .ok ps ∧
        ps.map Prod.fst = ks.filter (fun k => !decide (isMeta k)) ∧
        ∀ p ∈ ps, get v p.1 = .ok p.2
  | [] => fun _ => ⟨[], rfl, rfl, by simp⟩
  | k :: rest => fun h => by
    have hrest := getAll_ok rest (fun x hx => h x (List.mem_cons_of_mem k hx))
    obtain ⟨ps, hps, hkeys, hget⟩ := hrest
    by_cases hm : isMeta k
    · refine ⟨ps, ?_, ?_, hget⟩
      · rw [getAll, if_pos hm]
        exact hps
      · rw [hkeys, List.filter_cons, if_neg (by simp [hm])]
    · obtain ⟨s, hs⟩ := h k (List.mem_cons_self k rest) hm
      refine ⟨(k, s) :: ps, ?_, ?_, ?_⟩
      · rw [getAll, if_neg hm, hs, hps]
        rfl
      · rw [List.map_cons, hkeys, List.filter_cons, if_pos (by simp [hm])]
      · intro p hp
        rcases List.mem_cons.1 hp with hp | hp
        · subst hp
          exact hs
        · exact hget p hp

theorem storeAll_ok {key : Bytes} :
    ∀ (ps : List (String × String)) (m : List (String × Bytes)),
      (∀ p ∈ ps, p.1.length ≠ 0 ∧ p.2.length ≠ 0 ∧
        ∀ b ∈ encryptStr key p.2, b < 0x100) →
      (ps.map Prod.fst).Nodup →
      (storeAll ⟨m, key⟩ ps).1 = .ok () ∧
      (storeAll ⟨m, key⟩ ps).2.key = key ∧
      (∀ k, dictGet (storeAll ⟨m, key⟩ ps).2.mapping k =
        match dictGet ps k with
        | some s => some (encryptStr key s)
        | none => dictGet m k) ∧
      ((∀ p ∈ ps, p.1 ∈ dictKeys m) →
        dictKeys (storeAll ⟨m, key⟩ ps).2.mapping = dictKeys m)
  | [], m => fun _ _ => ⟨rfl, rfl, fun k => rfl, fun _ => rfl⟩
  | (k0, s0) :: rest, m => fun h hnd => by
    obtain ⟨hk0, hs0, henc⟩ := h (k0, s0) (List.mem_cons_self _ _)
    have hstep : store ⟨m, key⟩ k0 s0 true =
        .ok ⟨dictSet m k0 (encryptStr key s0), key⟩ :=
      store_ok_iff.2 ⟨hk0, hs0, Or.inr rfl, henc, rfl⟩
    have hrw : storeAll ⟨m, key⟩ ((k0, s0) :: rest) =
        storeAll ⟨dictSet m k0 (encryptStr key s0), key⟩ rest := by
      rw [storeAll, hstep]
    have hnd' : (rest.map Prod.fst).Nodup := (List.nodup_cons.1 hnd).2
    have hk0nd : k0 ∉ rest.map Prod.fst := (List.nodup_cons.1 hnd).1
    have ih := storeAll_ok rest (dictSet m k0 (encryptStr key s0))
      (fun p hp => h p (List.mem_cons_of_mem _ hp)) hnd'
    obtain ⟨ih1, ih2, ih3, ih4⟩ := ih
    rw [hrw]
    refine ⟨ih1, ih2, ?_, ?_⟩
    · intro k
      rw [ih3 k]
      by_cases hk : k0 = k
      · subst hk
        have hrestnone : dictGet rest k0 = none := by
          cases hdg : dictGet rest k0 with
          | none => rfl
          | some x =>
            exact absurd (by
              have := dictGet_mem hdg
              exact List.mem_map.2 ⟨(k0, x), this, rfl⟩) hk0nd
        rw [hrestnone]
        show dictGet (dictSet m k0 (encryptStr key s0)) k0 =
          match dictGet ((k0, s0) :: rest) k0 with
          | some s => some (encryptStr key s)
          | none => dictGet m k0
        rw [dictGet_dictSet_self]
        show _ = match (if k0 = k0 then some s0 else dictGet rest k0) with
          | some s => some (encryptStr key s)
          | none => dictGet m k0
        rw [if_pos rfl]
      · show (match dictGet rest k with
          | some s => some (encryptStr key s)
          | none => dictGet (dictSet m k0 (encryptStr key s0)) k) =
          match (if k0 = k then some s0 else dictGet rest k) with
          | some s => some (encryptStr key s)
          | none => dictGet m k
        rw [if_neg hk]
        cases hdg : dictGet rest k with
        | none => rw [dictGet_dictSet_ne m _ (fun hh => hk hh.symm)]
        | some s => rfl
    · intro hmem
      have hk0m : k0 ∈ dictKeys m := hmem (k0, s0) (List.mem_cons_self _ _)
      have hkeysset : dictKeys (dictSet m k0 (encryptStr key s0)) = dictKeys m :=
        dictKeys_dictSet_mem hk0m _
      rw [ih4 ?_, hkeysset]
      intro p hp
      rw [hkeysset]
      exact hmem p (List.mem_cons_of_mem _ hp)

/-! ## Key derivation lemmas -/

theorem length_mkKey (klen : Nat) (pswd salt : Bytes) :
    (mkKey klen pswd salt).length = klen := by
  simp [mkKey]

theorem getD_mkKey {klen : Nat} (pswd salt : Bytes) {i : Nat} (hi : i < klen) :
    (mkKey klen pswd salt).getD i 0 =
      pswd.getD (i % pswd.length) 0 ^^^ salt.getD (i % salt.length) 0 := by
  rw [List.getD_eq_getElem _ 0 (by simp [length_mkKey, hi])]
  simp [mkKey]

theorem mkKey_lt_256 {klen : Nat} {pswd salt : Bytes}
    (hp : ∀ b ∈ pswd, b < 0x100) (hs : ∀ b ∈ salt, b < 0x100) :
    ∀ b ∈ mkKey klen pswd salt, b < 0x100 := by
  intro b hb
  simp only [mkKey, List.mem_map] at hb
  obtain ⟨i, -, rfl⟩ := hb
  exact xor_lt_256 (getD_lt_256 hp _) (getD_lt_256 hs _)

theorem strBytes_hex_lt {s : String} (h : IsHexDigest s) :
    ∀ b ∈ strBytes s, b < 0x80 := by
  intro b hb
  simp only [strBytes, List.mem_map] at hb
  obtain ⟨c, hc, rfl⟩ := hb
  have hbound : c.toNat < 0x80 := by
    rcases h.2 c hc with ⟨-, hle⟩ | ⟨-, hle⟩
    · have h1 : c.val ≤ Char.val '9' := hle
      have h2 : c.val.toNat ≤ (Char.val '9').toNat := h1
      have h3 : c.toNat ≤ 57 := by simpa [Char.toNat] using h2
      omega
    · have h1 : c.val ≤ Char.val 'f' := hle
      have h2 : c.val.toNat ≤ (Char.val 'f').toNat := h1
      have h3 : c.toNat ≤ 102 := by simpa [Char.toNat] using h2
      omega
  exact hbound

theorem strBytes_length (s : String) : (strBytes s).length = s.length := by
  show (s.toList.map Char.toNat).length = s.length
  rw [List.length_map]
  rfl

/-- `get` of an entry whose ciphertext was produced by `encryptStr` under
the vault's own key returns the original string when it is ASCII. -/
theorem get_of_encrypted {v : Vault} {name s : String}
    (hname : name.length ≠ 0)
    (hmap : dictGet v.mapping name = some (encryptStr v.key s))
    (hascii : ∀ c ∈ s.toList, c.toNat < 0x80) :
    get v name = .ok s := by
  unfold get
  rw [if_neg hname, hmap]
  show (match utf8DecodeList (decryptBytes v.key (encryptStr v.key s)) with
    | some cs => Except.ok (String.mk cs)
    | none => Except.error Err.corrupt) = Except.ok s
  rw [decrypt_encrypt]
  have hlt : ∀ b ∈ s.toList.map Char.toNat, b < 0x80 := by
    intro b hb
    obtain ⟨c, hc, rfl⟩ := List.mem_map.1 hb
    exact hascii c hc
  rw [utf8DecodeList_ascii hlt, map_toNat_map_ofNat]
  rfl

/-- The success specification of `_update_encryptions`: under the
reachability invariants of a real vault (unique dict keys, both metadata
entries present, every credential entry decrypting to non-empty ASCII
text) and with a new key whose bytes are in range, the call succeeds,
installs the newly derived key, keeps the key set of the mapping
unchanged, stores the new digest and salt in the metadata entries, and
leaves every credential entry decrypting to the same plaintext. -/
theorem updateEncryptions_spec
    (H : String → String) (klen : Nat) (v : Vault) (password : String)
    (saltArg : Option Bytes) (pswdIsDigest : Bool) (freshSalt : Bytes)
    (hnodup : (dictKeys v.mapping).Nodup)
    (hcm : "__cm_password__" ∈ dictKeys v.mapping)
    (hsaltm : "__salt__" ∈ dictKeys v.mapping)
    (hentries : ∀ k ∈ dictKeys v.mapping, ¬isMeta k →
        ∃ s, get v k = .ok s ∧ s.length ≠ 0 ∧ ∀ c ∈ s.toList, c.toNat < 0x80)
    (hkeybytes : ∀ b ∈ mkKey klen
        (strBytes (if pswdIsDigest then password else H password))
        (resolveSalt saltArg freshSalt), b < 0x100) :
    (updateEncryptions H klen v password saltArg pswdIsDigest freshSalt).1 = .ok () ∧
    (updateEncryptions H klen v password saltArg pswdIsDigest freshSalt).2.key =
      mkKey klen (strBytes (if pswdIsDigest then password else H password))
        (resolveSalt saltArg freshSalt) ∧
    dictKeys (updateEncryptions H klen v password saltArg pswdIsDigest freshSalt).2.mapping =
      dictKeys v.mapping ∧
    dictGet (updateEncryptions H klen v password saltArg pswdIsDigest freshSalt).2.mapping
      "__cm_password__" =
      some (strBytes (if pswdIsDigest then password else H password)) ∧
    dictGet (updateEncryptions H klen v password saltArg pswdIsDigest freshSalt).2.mapping
      "__salt__" = some (resolveSalt saltArg freshSalt) ∧
    ∀ k, ¬isMeta k → k ∈ dictKeys v.mapping →
      get (updateEncryptions H klen v password saltArg pswdIsDigest freshSalt).2 k =
        get v k := by
  set pswd := strBytes (if pswdIsDigest then password else H password) with hpswd
  set salt := resolveSalt saltArg freshSalt with hsalt
  set newKey := mkKey klen pswd salt with hnewKey
  obtain ⟨ps, hps, hkeys, hget⟩ :=
    getAll_ok (v := v) (dictKeys v.mapping)
      (fun k hk hm => (hentries k hk hm).imp (fun s hs => hs.1))
  have hpsfacts : ∀ p ∈ ps, get v p.1 = .ok p.2 ∧ p.1 ∈ dictKeys v.mapping ∧
      ¬isMeta p.1 ∧ p.2.length ≠ 0 ∧ ∀ c ∈ p.2.toList, c.toNat < 0x80 := by
    intro p hp
    have h1 := hget p hp
    have hmemf : p.1 ∈ List.filter (fun k => !decide (isMeta k)) (dictKeys v.mapping) := by
      rw [← hkeys]
      exact List.mem_map.2 ⟨p, hp, rfl⟩
    have hmem := List.mem_of_mem_filter hmemf
    have hnm : ¬isMeta p.1 := by
      have := List.of_mem_filter hmemf
      simpa using this
    obtain ⟨s, hs, hlen, hascii⟩ := hentries p.1 hmem hnm
    rw [h1] at hs
    cases hs
    exact ⟨h1, hmem, hnm, hlen, hascii⟩
  have hnd : (ps.map Prod.fst).Nodup := by
    rw [hkeys]
    exact hnodup.filter _
  have hstoreCond : ∀ p ∈ ps, p.1.length ≠ 0 ∧ p.2.length ≠ 0 ∧
      ∀ b ∈ encryptStr newKey p.2, b < 0x100 := by
    intro p hp
    obtain ⟨h1, -, -, hlen, hascii⟩ := hpsfacts p hp
    refine ⟨(get_ok_inversion h1).1, hlen, ?_⟩
    exact mem_encryptStr_lt_256 hkeybytes (fun c hc => by have := hascii c hc; omega)
  obtain ⟨hsa1, hsa2, hsa3, hsa4⟩ := storeAll_ok ps v.mapping hstoreCond hnd
  have hr : updateEncryptions H klen v password saltArg pswdIsDigest freshSalt =
      (.ok (), { mapping := dictSet (dictSet (storeAll ⟨v.mapping, newKey⟩ ps).2.mapping
                     "__cm_password__" pswd) "__salt__" salt,
                 key := (storeAll ⟨v.mapping, newKey⟩ ps).2.key }) := by
    simp only [updateEncryptions, ← hpswd, ← hsalt, ← hnewKey, hps]
    rcases hsAll : storeAll (⟨v.mapping, newKey⟩ : Vault) ps with ⟨r1, v2⟩
    rw [hsAll] at hsa1
    simp only at hsa1
    subst hsa1
    rfl
  rw [hr]
  have hpskeys : ∀ p ∈ ps, p.1 ∈ dictKeys v.mapping := fun p hp => (hpsfacts p hp).2.1
  have hm2keys : dictKeys (storeAll (⟨v.mapping, newKey⟩ : Vault) ps).2.mapping =
      dictKeys v.mapping := hsa4 hpskeys
  have hkeyset : dictKeys (dictSet (storeAll (⟨v.mapping, newKey⟩ : Vault) ps).2.mapping
      "__cm_password__" pswd) = dictKeys v.mapping := by
    rw [dictKeys_dictSet_mem (by rw [hm2keys]; exact hcm) pswd, hm2keys]
  refine ⟨rfl, hsa2, ?_, ?_, ?_, ?_⟩
  · show dictKeys (dictSet _ "__salt__" salt) = dictKeys v.mapping
    rw [dictKeys_dictSet_mem ?_ salt]
    · exact hkeyset
    · rw [hkeyset]
      exact hsaltm
  · show dictGet (dictSet _ "__salt__" salt) "__cm_password__" = some pswd
    rw [dictGet_dictSet_ne _ _ (by decide), dictGet_dictSet_self]
  · exact dictGet_dictSet_self _ _ _
  · intro k hnm hk
    obtain ⟨s, hsget, hslen, hsascii⟩ := hentries k hk hnm
    have hpsk : dictGet ps k = some s := by
      have hkf : k ∈ ps.map Prod.fst := by
        rw [hkeys]
        exact List.mem_filter.2 ⟨hk, by simpa using hnm⟩
      have hisSome := (mem_dictKeys_iff_isSome ps k).1 hkf
      obtain ⟨s', hs'⟩ := Option.isSome_iff_exists.1 hisSome
      have := (hpsfacts (k, s') (dictGet_mem hs')).1
      rw [hsget] at this
      cases this
      exact hs'
    have hmapk : dictGet (dictSet (dictSet
        (storeAll (⟨v.mapping, newKey⟩ : Vault) ps).2.mapping
        "__cm_password__" pswd) "__salt__" salt) k =
        some (encryptStr newKey s) := by
      rw [dictGet_dictSet_ne _ _ (fun hh => hnm (Or.inr hh)),
        dictGet_dictSet_ne _ _ (fun hh => hnm (Or.inl hh))]
      rw [hsa3 k, hpsk]
    rw [hsget]
    exact get_of_encrypted (v := ⟨dictSet (dictSet
        (storeAll (⟨v.mapping, newKey⟩ : Vault) ps).2.mapping
        "__cm_password__" pswd) "__salt__" salt,
        (storeAll (⟨v.mapping, newKey⟩ : Vault) ps).2.key⟩)
      (get_ok_inversion hsget).1 (by rw [hsa2]; exact hmapk) hsascii

/-! ## Constructor, inversion and serialization lemmas -/

theorem resolveSalt_some {s fresh : Bytes} (h : s.length ≠ 0) :
    resolveSalt (some s) fresh = s := by
  show (if s.length = 0 then fresh else s) = s
  rw [if_neg h]

/-- A fresh vault: `__init__` always succeeds and produces exactly the two
metadata entries and the derived key. -/
theorem mkVault_eq (H : String → String) (klen : Nat) (password : String)
    (saltArg : Option Bytes) (pswdIsDigest : Bool) (freshSalt : Bytes) :
    mkVault H klen password saltArg pswdIsDigest freshSalt =
      (.ok (), ⟨[("__cm_password__",
                   strBytes (if pswdIsDigest then password else H password)),
                 ("__salt__", resolveSalt saltArg freshSalt)],
        mkKey klen (strBytes (if pswdIsDigest then password else H password))
          (resolveSalt saltArg freshSalt)⟩) := rfl

theorem storeAll_key_eq : ∀ (ps : List (String × String)) (v : Vault),
    (storeAll v ps).2.key = v.key
  | [], _ => rfl
  | (n, d) :: rest, v => by
    rw [storeAll]
    cases hs : store v n d true with
    | error e => rfl
    | ok v1 =>
      have hk : v1.key = v.key := by
        obtain ⟨-, -, -, -, rfl⟩ := store_ok_iff.1 hs
        rfl
      show (storeAll v1 rest).2.key = v.key
      rw [storeAll_key_eq rest v1, hk]

theorem updateEncryptions_ok_inversion
    {H : String → String} {klen : Nat} {v : Vault} {p : String}
    {saltArg : Option Bytes} {d : Bool} {fresh : Bytes} {r2 : Vault}
    (h : updateEncryptions H klen v p saltArg d fresh = (.ok (), r2)) :
    r2.key = mkKey klen (strBytes (if d then p else H p)) (resolveSalt saltArg fresh) := by
  rcases hga : getAll v (dictKeys v.mapping) with e | ps
  · simp only [updateEncryptions, hga] at h
    have hfst := congrArg Prod.fst h
    simp at hfst
  · simp only [updateEncryptions, hga] at h
    rcases hsa : storeAll { v with key := mkKey klen (strBytes (if d then p else H p)) (resolveSalt saltArg fresh) } ps with ⟨r1, v2⟩
    rw [hsa] at h
    cases r1 with
    | error e =>
      have hfst := congrArg Prod.fst h
      simp at hfst
    | ok u =>
      have hkey : v2.key = mkKey klen (strBytes (if d then p else H p))
          (resolveSalt saltArg fresh) := by
        have hk2 := storeAll_key_eq ps { v with key := mkKey klen (strBytes (if d then p else H p)) (resolveSalt saltArg fresh) }
        rw [hsa] at hk2
        exact hk2
      have hr2 := congrArg Prod.snd h
      simp only at hr2
      rw [← hr2]
      exact hkey

theorem updatePassword_ok_inversion
    {H : String → String} {klen : Nat} {v : Vault} {old new : String}
    {fresh : Bytes} {r2 : Vault}
    (h : updatePassword H klen v old new fresh = (.ok (), r2)) :
    r2.key = mkKey klen (strBytes (H new)) fresh := by
  rcases hdg : dictGet v.mapping "__cm_password__" with _ | stored
  · simp only [updatePassword, hdg] at h
    have hfst := congrArg Prod.fst h
    simp at hfst
  · simp only [updatePassword, hdg] at h
    by_cases hne : strBytes (H old) ≠ stored
    · rw [if_pos hne] at h
      have hfst := congrArg Prod.fst h
      simp at hfst
    · rw [if_neg hne] at h
      have hkey := updateEncryptions_ok_inversion h
      simpa [resolveSalt] using hkey

theorem dictGet_map {α β : Type} (f : α → β) :
    ∀ (m : List (String × α)) (k : String),
      dictGet (m.map (fun kv => (kv.1, f kv.2))) k = (dictGet m k).map f
  | [], _ => rfl
  | (k0, v0) :: rest, k => by
    by_cases hk : k0 = k
    · simp [dictGet, hk]
    · simp [dictGet, hk, dictGet_map f rest k]

/-! ## Hex parsing lemmas -/

theorem char_toNat_le_of_le {a b : Char} (h : a ≤ b) : a.toNat ≤ b.toNat := by
  have h1 : a.val ≤ b.val := h
  have h2 : a.val.toNat ≤ b.val.toNat := h1
  simpa [Char.toNat] using h2

theorem hexVal_isSome_of_digit {c : Char}
    (h : ('0' ≤ c ∧ c ≤ '9') ∨ ('a' ≤ c ∧ c ≤ 'f')) : (hexVal c).isSome := by
  unfold hexVal
  rcases h with h | h
  · rw [if_pos h]
    rfl
  · by_cases h0 : '0' ≤ c ∧ c ≤ '9'
    · rw [if_pos h0]
      rfl
    · rw [if_neg h0, if_pos h]
      rfl

theorem hexVal_lt16 {c : Char} {d : Nat} (h : hexVal c = some d) : d < 16 := by
  unfold hexVal at h
  split_ifs at h with h1 h2 h3
  · have hb := char_toNat_le_of_le h1.2
    have h9 : Char.toNat '9' = 57 := rfl
    have h0 : Char.toNat '0' = 48 := rfl
    cases h
    omega
  · have hb := char_toNat_le_of_le h2.2
    have hf : Char.toNat 'f' = 102 := rfl
    have ha : Char.toNat 'a' = 97 := rfl
    cases h
    omega
  · have hb := char_toNat_le_of_le h3.2
    have hF : Char.toNat 'F' = 70 := rfl
    have hA : Char.toNat 'A' = 65 := rfl
    cases h
    omega

theorem parseHex_fold_bound :
    ∀ (cs : List Char) (a B : Nat), a < B →
      (∀ c ∈ cs, (hexVal c).isSome) →
      ∃ d, (cs.foldl (fun acc c =>
        match acc, hexVal c with
        | some a, some d => some (a * 16 + d)
        | _, _ => none) (some a)) = some d ∧ d < B * 16 ^ cs.length
  | [], a, B => fun ha _ => ⟨a, rfl, by simpa using ha⟩
  | c :: t, a, B => fun ha hv => by
    obtain ⟨dv, hdv⟩ := Option.isSome_iff_exists.1 (hv c (List.mem_cons_self c t))
    have hdv16 := hexVal_lt16 hdv
    have hstep : ((c :: t).foldl (fun acc c =>
        match acc, hexVal c with
        | some a, some d => some (a * 16 + d)
        | _, _ => none) (some a)) = (t.foldl (fun acc c =>
        match acc, hexVal c with
        | some a, some d => some (a * 16 + d)
        | _, _ => none) (some (a * 16 + dv))) := by
      rw [List.foldl_cons]
      simp only [hdv]
    obtain ⟨d, hd, hlt⟩ := parseHex_fold_bound t (a * 16 + dv) (B * 16)
      (by omega) (fun x hx => hv x (List.mem_cons_of_mem c hx))
    refine ⟨d, by rw [hstep, hd], ?_⟩
    have hpow : B * 16 * 16 ^ t.length = B * 16 ^ (c :: t).length := by
      rw [List.length_cons, pow_succ]
      ring
    omega

theorem parseHexList_bound {cs : List Char} (hne : cs ≠ [])
    (hv : ∀ c ∈ cs, (hexVal c).isSome) :
    ∃ d, parseHexList cs = some d ∧ d < 16 ^ cs.length := by
  unfold parseHexList
  rw [if_neg (by simpa using hne)]
  obtain ⟨d, hd, hlt⟩ := parseHex_fold_bound cs 0 1 (by omega) hv
  exact ⟨d, hd, by simpa using hlt⟩

/-! ## load inversion -/

/-- What a successful `load` of an existing file tells us: the file was an
object, every value base64-decoded, the stored digest equals the digest of
the supplied password, and the vault carries the decoded mapping together
with the key derived from that digest and the stored salt. -/
theorem load_ok_inversion {H : String → String} {klen : Nat} {fn : String}
    {j : JValue} {pw : String} {fresh : Bytes} {v2 : Vault}
    (hH : ∀ b ∈ strBytes (H pw), b < 0x80)
    (h : load H klen fn (some j) pw fresh = .ok v2) :
    ∃ entries mappings saltBytes,
      j = JValue.jobj entries ∧
      decodeEntries entries = .ok mappings ∧
      v2.mapping = mappings ∧
      dictGet mappings "__cm_password__" = some (strBytes (H pw)) ∧
      dictGet mappings "__salt__" = some saltBytes ∧
      v2.key = mkKey klen (strBytes (H pw)) (resolveSalt (some saltBytes) fresh) := by
  cases j with
  | jnull =>
    simp only [load] at h
    split at h <;> simp at h
  | jbool b =>
    simp only [load] at h
    split at h <;> simp at h
  | jnum n =>
    simp only [load] at h
    split at h <;> simp at h
  | jstr s =>
    simp only [load] at h
    split at h <;> simp at h
  | jarr xs =>
    simp only [load] at h
    split at h <;> simp at h
  | jobj entries =>
    simp only [load] at h
    split at h
    · simp at h
    · split at h
      · simp at h
      · rcases hde : decodeEntries entries with e | mappings
        · simp only [hde] at h
          simp at h
        · simp only [hde] at h
          rcases hcm : dictGet mappings "__cm_password__" with _ | loadedPswd
          · simp only [hcm] at h
            simp at h
          · simp only [hcm] at h
            split at h
            · simp at h
            · rename_i hne
              have heq : loadedPswd = strBytes (H pw) := not_not.1 hne
              rw [heq] at hcm h
              rw [utf8DecodeList_ascii hH] at h
              rcases hsalt : dictGet mappings "__salt__" with _ | saltBytes
              · simp only [hsalt] at h
                simp at h
              · simp only [hsalt, mkVault_eq] at h
                rw [Except.ok.injEq] at h
                refine ⟨entries, mappings, saltBytes, rfl, hde, ?_, hcm, hsalt, ?_⟩
                · rw [← h]
                · rw [← h]
                  show mkKey klen (strBytes (String.mk
                      ((strBytes (H pw)).map Char.ofNat)))
                      (resolveSalt (some saltBytes) fresh) =
                    mkKey klen (strBytes (H pw)) (resolveSalt (some saltBytes) fresh)
                  rw [strBytes_mk_map_ofNat hH]

/-! ## Concrete example vaults for counterexamples and witnesses -/

def exampleSalt : Bytes := List.replicate 16 0

/-- A fresh vault with password `"pw"`, a 16-byte key and a concrete salt. -/
def exampleVault : Vault := (mkVault testHash 16 "pw" (some exampleSalt) false []).2

/-- `exampleVault` after `store("n", "secretA")`. -/
def exampleStoredVault : Vault :=
  match store exampleVault "n" "secretA" false with
  | .ok v => v
  | .error _ => exampleVault

theorem clip_eq (n : Nat) : clip n = 16 + n % 49 := rfl

/-! ## Claims -/

/-- C8: `keyLength` and `saltLength` are each computed from the SHA-256
hex digest of the host fingerprint string as `16 + (d mod 49)`, where `d`
is the 16-bit unsigned integer parsed from hex characters 0-3 of the
digest for `keyLength` and from hex characters 4-7 for `saltLength`;
consequently both lengths lie in `[16, 64]`. -/
theorem c8_key_length_derivation (H : String → String) (fp : String)
    (hH : IsHexDigest (H fp)) :
    ∃ d1 d2, d1 < 65536 ∧ d2 < 65536 ∧
      parseHexList ((H fp).toList.take 4) = some d1 ∧
      parseHexList (((H fp).toList.drop 4).take 4) = some d2 ∧
      getKeyLength H fp = some (16 + d1 % 49, 16 + d2 % 49) ∧
      16 ≤ 16 + d1 % 49 ∧ 16 + d1 % 49 ≤ 64 ∧
      16 ≤ 16 + d2 % 49 ∧ 16 + d2 % 49 ≤ 64 := by
  have hlen : (H fp).toList.length = 64 := by
    show (H fp).length = 64
    exact hH.1
  have hval : ∀ c ∈ (H fp).toList, (hexVal c).isSome :=
    fun c hc => hexVal_isSome_of_digit (hH.2 c hc)
  have hlen1 : ((H fp).toList.take 4).length = 4 := by
    rw [List.length_take, hlen]
    decide
  have hlen2 : (((H fp).toList.drop 4).take 4).length = 4 := by
    rw [List.length_take, List.length_drop, hlen]
    decide
  obtain ⟨d1, hd1, hb1⟩ := @parseHexList_bound ((H fp).toList.take 4)
    (by intro hc; rw [hc] at hlen1; cases hlen1)
    (fun c hc => hval c (List.take_subset _ _ hc))
  obtain ⟨d2, hd2, hb2⟩ := @parseHexList_bound (((H fp).toList.drop 4).take 4)
    (by intro hc; rw [hc] at hlen2; cases hlen2)
    (fun c hc => hval c (List.drop_subset _ _ (List.take_subset _ _ hc)))
  rw [hlen1] at hb1
  rw [hlen2] at hb2
  have hm1 : d1 % 49 < 49 := Nat.mod_lt _ (by omega)
  have hm2 : d2 % 49 < 49 := Nat.mod_lt _ (by omega)
  refine ⟨d1, d2, by omega, by omega, hd1, hd2, ?_, by omega, by omega, by omega, by omega⟩
  simp only [getKeyLength, hd1, hd2, clip_eq]

/-- C8 witness: evaluated at the stand-in digest function on a concrete
fingerprint string. -/
theorem c8_witness : ∃ d1 d2, d1 < 65536 ∧ d2 < 65536 ∧
    parseHexList ((testHash "fingerprint").toList.take 4) = some d1 ∧
    parseHexList (((testHash "fingerprint").toList.drop 4).take 4) = some d2 ∧
    getKeyLength testHash "fingerprint" = some (16 + d1 % 49, 16 + d2 % 49) ∧
    16 ≤ 16 + d1 % 49 ∧ 16 + d1 % 49 ≤ 64 ∧
    16 ≤ 16 + d2 % 49 ∧ 16 + d2 % 49 ≤ 64 :=
  c8_key_length_derivation testHash "fingerprint" (testHash_isHexDigest "fingerprint")

/-- C3: `update_password` with an old password whose digest bytes differ
from the stored `__cm_password__` entry fails with the authorization
error (`ValueError('Cannot update password, old password is incorrect')`)
and returns the vault state completely unchanged — every entry's
ciphertext, the key, the digest and the salt are exactly as before, since
the digest comparison precedes every mutation in the source. -/
theorem c3_wrong_old_password_unchanged (H : String → String) (klen : Nat)
    (v : Vault) (oldPassword newPassword : String) (freshSalt : Bytes)
    (stored : Bytes)
    (hstored : dictGet v.mapping "__cm_password__" = some stored)
    (hne : strBytes (H oldPassword) ≠ stored) :
    updatePassword H klen v oldPassword newPassword freshSalt =
      (.error .unauthorized, v) := by
  simp only [updatePassword, hstored]
  rw [if_pos hne]

/-- C3 witness: a wrong old password (`testHash` distinguishes strings of
even and odd length) on a concrete vault. -/
theorem c3_witness :
    updatePassword testHash 16 exampleVault "abc" "new" [] =
      (.error .unauthorized, exampleVault) :=
  c3_wrong_old_password_unchanged testHash 16 exampleVault "abc" "new" []
    (List.replicate 64 97) (by decide) (by decide)

/-- C10: if `data` contains any character with code point `≥ 256`, `store`
raises (`Err.byteRange`, the `ValueError` of the `bytearray` construction,
unless the earlier duplicate-name check fires first with `Err.conflict`)
and, since the only mutation of the source (`self.__mapping[name] = ...`)
happens after the `bytearray` is fully built, the entry mapping is left
unchanged and no partially encrypted entry is ever recorded — which the
pure `store` (whose error results carry no new state) mirrors. -/
theorem c10_big_char_store_fails (v : Vault) (name data : String)
    (overwrite : Bool)
    (hkey : ∀ b ∈ v.key, b < 0x100)
    (hname : name.length ≠ 0)
    (hbig : ∃ c ∈ data.toList, 0x100 ≤ c.toNat) :
    store v name data overwrite = .error .conflict ∨
    store v name data overwrite = .error .byteRange := by
  obtain ⟨c, hc, hcbig⟩ := hbig
  have hdata : data.length ≠ 0 := by
    intro h0
    have hl : data.toList.length = 0 := h0
    rw [List.length_eq_zero] at hl
    rw [hl] at hc
    cases hc
  unfold store
  rw [if_neg hname, if_neg hdata]
  by_cases hconf : ((dictGet v.mapping name).isSome && !overwrite) = true
  · rw [if_pos hconf]
    left
    rfl
  · rw [if_neg hconf]
    right
    have hnotall : ¬((encryptStr v.key data).all (fun b => decide (b < 0x100)) = true) := by
      intro hall
      obtain ⟨i, hi, hci⟩ := List.mem_iff_getElem.1 hc
      have henc : (encryptStr v.key data)[i]? = some (c.toNat ^^^ keyAt v.key i) := by
        rw [getElem?_encryptStr, List.getElem?_eq_getElem hi, hci]
        rfl
      have hmem : (c.toNat ^^^ keyAt v.key i) ∈ encryptStr v.key data := by
        have := List.getElem?_eq_some.1 henc
        obtain ⟨hlt, hgt⟩ := this
        rw [← hgt]
        exact List.getElem_mem _
      have hb := List.all_eq_true.1 hall _ hmem
      have hge : 0x100 ≤ c.toNat ^^^ keyAt v.key i :=
        xor_ge_256 (keyAt_lt_256 hkey i) hcbig
      simp at hb
      omega
    rw [if_neg hnotall]

/-- C10 witness: storing `"Ā"` (`U+0100`) in a concrete vault fails with
the byte-range error. -/
theorem c10_witness :
    store exampleVault "n" "Ā" false = .error .conflict ∨
    store exampleVault "n" "Ā" false = .error .byteRange :=
  c10_big_char_store_fails exampleVault "n" "Ā" false (by decide) (by decide)
    ⟨'Ā', by decide, by decide⟩

/-- C1 counterexample: the claim quantifies over every non-empty `data`,
but for `data = "é"` (code point `0xE9`, a single character) `store`
succeeds while the following `get` fails: the cipher XORs one byte per
character, and the single byte `0xE9` is not valid UTF-8, so
`bytearray.decode('utf-8')` raises.  The outer `Except.ok` shows the
store succeeded; the inner value is what `get` then returns — a
`UnicodeDecodeError`, not `"é"`. -/
theorem c1_counterexample :
    (store exampleVault "x" "é" false).map (fun v1 => get v1 "x") =
      Except.ok (Except.error Err.corrupt) := by decide

/-- C1 (amended): for every vault and non-empty name, immediately after a
successful `store(name, data)`, `get(name)` returns `data` — provided
every character of `data` is ASCII (code point `< 128`); for other
single-byte characters the stored byte sequence is not valid UTF-8 and
`get` fails, and the spec itself flags non-ASCII text as out of scope. -/
theorem c1_roundtrip_ascii {v : Vault} {name data : String} {overwrite : Bool}
    {v1 : Vault}
    (hok : store v name data overwrite = .ok v1)
    (hascii : ∀ c ∈ data.toList, c.toNat < 0x80) :
    get v1 name = .ok data :=
  store_get_roundtrip hok hascii

/-- C1 witness: round trip of `"secretA"` on a concrete vault. -/
theorem c1_witness : get exampleStoredVault "n" = .ok "secretA" :=
  @c1_roundtrip_ascii exampleVault "n" "secretA" false exampleStoredVault
    (by decide) (by decide)

/-- C6 counterexample: the overwrite clause of the claim states that after
a second `store` with `overwrite=true`, `get` returns the new value — for
every data string.  Storing `"Ã©"` (code points `0xC3 0xA9`) succeeds,
but `get` then decodes the two bytes as the UTF-8 sequence for `"é"`, so
it returns `"é"`, not the stored `"Ã©"`. -/
theorem c6_counterexample :
    (store exampleVault "n" "a" false).map (fun w1 =>
      (store w1 "n" "Ã©" true).map (fun w2 => get w2 "n")) =
      Except.ok (Except.ok (Except.ok "é")) := by decide

/-- C6 (amended): `store` fails with the invalid-argument error when
`name` or `data` is empty; it fails with the conflict error when `name`
is already present and `overwrite` is false; and with `overwrite=true` a
second store of the same name succeeds and replaces the entry so that a
subsequent `get` returns the new value — provided the new value is
non-empty ASCII text (the byte-per-character cipher only round-trips
through UTF-8 for ASCII) and the key bytes are in byte range. -/
theorem c6_store_error_and_overwrite (v : Vault) (name data : String)
    (overwrite : Bool) :
    ((name.length = 0 ∨ data.length = 0) →
      store v name data overwrite = .error .invalidArg) ∧
    (name.length ≠ 0 → data.length ≠ 0 → (dictGet v.mapping name).isSome →
      overwrite = false → store v name data overwrite = .error .conflict) ∧
    (∀ v1 data2, store v name data overwrite = .ok v1 →
      data2.length ≠ 0 → (∀ c ∈ data2.toList, c.toNat < 0x80) →
      (∀ b ∈ v.key, b < 0x100) →
      ∃ v2, store v1 name data2 true = .ok v2 ∧ get v2 name = .ok data2) := by
  refine ⟨?_, ?_, ?_⟩
  · intro h
    unfold store
    rcases h with h | h
    · rw [if_pos h]
    · by_cases hn : name.length = 0
      · rw [if_pos hn]
      · rw [if_neg hn, if_pos h]
  · intro hn hd hsome hov
    unfold store
    rw [if_neg hn, if_neg hd, if_pos (by rw [hsome, hov]; rfl)]
  · intro v1 data2 hok hd2 hascii hkey
    obtain ⟨hn, -, -, -, hv1⟩ := store_ok_iff.1 hok
    have hkey1 : v1.key = v.key := by
      rw [hv1]
    have hok2 : store v1 name data2 true =
        .ok { v1 with mapping := dictSet v1.mapping name (encryptStr v1.key data2) } := by
      apply store_ok_iff.2
      refine ⟨hn, hd2, Or.inr rfl, ?_, rfl⟩
      rw [hkey1]
      exact mem_encryptStr_lt_256 hkey (fun c hc => by have := hascii c hc; omega)
    exact ⟨_, hok2, store_get_roundtrip hok2 hascii⟩

/-- C6 witness: all three clauses at concrete inputs — empty name, a
duplicate store without overwrite, and an overwriting store followed by a
`get` of the new value. -/
theorem c6_witness :
    store exampleVault "" "d" false = .error .invalidArg ∧
    store exampleStoredVault "n" "x" false = .error .conflict ∧
    ∃ v2, store exampleStoredVault "n" "newval" true = .ok v2 ∧
      get v2 "n" = .ok "newval" := by
  refine ⟨?_, ?_, ?_⟩
  · exact (c6_store_error_and_overwrite exampleVault "" "d" false).1 (Or.inl rfl)
  · exact (c6_store_error_and_overwrite exampleStoredVault "n" "x" false).2.1
      (by decide) (by decide) (by decide) rfl
  · exact (c6_store_error_and_overwrite exampleVault "n" "secretA" false).2.2
      exampleStoredVault "newval" (by decide) (by decide) (by decide) (by decide)

theorem xor_left_injective {a x y : Nat} (h : a ^^^ x = a ^^^ y) : x = y := by
  have hc := congrArg (fun z => a ^^^ z) h
  simpa [Nat.xor_cancel_left] using hc

def c9OtherSalt : Bytes := 0 :: 1 :: List.replicate 14 0

def c9OtherVault : Vault := (mkVault testHash 16 "pw" (some c9OtherSalt) false []).2

/-- C9 counterexample: two vaults created with the same password but
different salts (differing only at byte 1) encrypt the plaintext `"a"` to
the *same* one-byte ciphertext, because a one-character plaintext only
touches `key[0]`, which agrees when the salts agree at byte 0.  The claim
that identical plaintext always yields different ciphertext is false
(both vaults still `get` the same plaintext back). -/
theorem c9_counterexample :
    exampleSalt ≠ c9OtherSalt ∧
    (store exampleVault "n" "a" false).map (fun w => dictGet w.mapping "n") =
      (store c9OtherVault "n" "a" false).map (fun w => dictGet w.mapping "n") ∧
    (store exampleVault "n" "a" false).map (fun w => get w "n") =
      Except.ok (Except.ok "a") ∧
    (store c9OtherVault "n" "a" false).map (fun w => get w "n") =
      Except.ok (Except.ok "a") := by decide

/-- C9 (amended): for two vaults created with the same password but salts
of equal length that differ at an index `j` below both `keyLength` and
the plaintext length, storing the same ASCII plaintext under the same
non-metadata name produces *different* ciphertext byte sequences (they
differ at byte `j`), while `get` on each vault returns the same original
plaintext.  (When the salts differ only at positions never read by the
key derivation, or beyond the plaintext length, the ciphertexts can
coincide — see the counterexample.) -/
theorem c9_salt_divergence (H : String → String) (klen : Nat)
    (p name data : String) (s1 s2 fresh1 fresh2 : Bytes) (j : Nat)
    (hH : ∀ b ∈ strBytes (H p), b < 0x100)
    (hs1b : ∀ b ∈ s1, b < 0x100) (hs2b : ∀ b ∈ s2, b < 0x100)
    (hlen : s1.length = s2.length)
    (hjk : j < klen) (hjs : j < s1.length)
    (hdiff : s1.getD j 0 ≠ s2.getD j 0)
    (hnm : ¬isMeta name) (hname : name.length ≠ 0)
    (hascii : ∀ c ∈ data.toList, c.toNat < 0x80)
    (hjd : j < data.length) :
    ∃ w1 w2,
      store (mkVault H klen p (some s1) false fresh1).2 name data false = .ok w1 ∧
      store (mkVault H klen p (some s2) false fresh2).2 name data false = .ok w2 ∧
      dictGet w1.mapping name ≠ dictGet w2.mapping name ∧
      get w1 name = .ok data ∧ get w2 name = .ok data := by
  have hs1len : s1.length ≠ 0 := by omega
  have hs2len : s2.length ≠ 0 := by omega
  have hdlen : data.length ≠ 0 := by omega
  have hrs1 : resolveSalt (some s1) fresh1 = s1 := resolveSalt_some hs1len
  have hrs2 : resolveSalt (some s2) fresh2 = s2 := resolveSalt_some hs2len
  have hva : (mkVault H klen p (some s1) false fresh1).2 =
      ⟨[("__cm_password__", strBytes (H p)), ("__salt__", s1)],
        mkKey klen (strBytes (H p)) s1⟩ := by
    rw [mkVault_eq]
    simp only [hrs1]
    rfl
  have hvb : (mkVault H klen p (some s2) false fresh2).2 =
      ⟨[("__cm_password__", strBytes (H p)), ("__salt__", s2)],
        mkKey klen (strBytes (H p)) s2⟩ := by
    rw [mkVault_eq]
    simp only [hrs2]
    rfl
  have hgetnone : ∀ s : Bytes,
      dictGet [("__cm_password__", strBytes (H p)), ("__salt__", s)] name = none := by
    intro s
    simp only [dictGet]
    rw [if_neg (fun hh => hnm (Or.inl hh.symm)), if_neg (fun hh => hnm (Or.inr hh.symm))]
  have hchars : ∀ c ∈ data.toList, c.toNat < 0x100 :=
    fun c hc => by have := hascii c hc; omega
  have hok1 : store (mkVault H klen p (some s1) false fresh1).2 name data false =
      .ok ⟨dictSet [("__cm_password__", strBytes (H p)), ("__salt__", s1)] name
          (encryptStr (mkKey klen (strBytes (H p)) s1) data),
        mkKey klen (strBytes (H p)) s1⟩ := by
    rw [hva]
    exact store_ok_iff.2 ⟨hname, hdlen, Or.inl (hgetnone s1),
      mem_encryptStr_lt_256 (mkKey_lt_256 hH hs1b) hchars, rfl⟩
  have hok2 : store (mkVault H klen p (some s2) false fresh2).2 name data false =
      .ok ⟨dictSet [("__cm_password__", strBytes (H p)), ("__salt__", s2)] name
          (encryptStr (mkKey klen (strBytes (H p)) s2) data),
        mkKey klen (strBytes (H p)) s2⟩ := by
    rw [hvb]
    exact store_ok_iff.2 ⟨hname, hdlen, Or.inl (hgetnone s2),
      mem_encryptStr_lt_256 (mkKey_lt_256 hH hs2b) hchars, rfl⟩
  refine ⟨_, _, hok1, hok2, ?_, ?_, ?_⟩
  · show dictGet (dictSet _ name _) name ≠ dictGet (dictSet _ name _) name
    rw [dictGet_dictSet_self, dictGet_dictSet_self]
    intro hcontra
    rw [Option.some.injEq] at hcontra
    have hj1 : (encryptStr (mkKey klen (strBytes (H p)) s1) data)[j]? =
        (encryptStr (mkKey klen (strBytes (H p)) s2) data)[j]? := by
      rw [hcontra]
    have hjdl : j < data.toList.length := hjd
    rw [getElem?_encryptStr, getElem?_encryptStr,
      List.getElem?_eq_getElem hjdl] at hj1
    simp only [Option.map_some', Option.some.injEq] at hj1
    have hk1 : keyAt (mkKey klen (strBytes (H p)) s1) j =
        (strBytes (H p)).getD (j % (strBytes (H p)).length) 0 ^^^ s1.getD j 0 := by
      unfold keyAt
      rw [length_mkKey, Nat.mod_eq_of_lt hjk, getD_mkKey _ _ hjk,
        Nat.mod_eq_of_lt hjs]
    have hk2 : keyAt (mkKey klen (strBytes (H p)) s2) j =
        (strBytes (H p)).getD (j % (strBytes (H p)).length) 0 ^^^ s2.getD j 0 := by
      unfold keyAt
      rw [length_mkKey, Nat.mod_eq_of_lt hjk, getD_mkKey _ _ hjk,
        Nat.mod_eq_of_lt (show j < s2.length by omega)]
    rw [hk1, hk2] at hj1
    exact hdiff (xor_left_injective (xor_left_injective hj1))
  · exact store_get_roundtrip hok1 hascii
  · exact store_get_roundtrip hok2 hascii

/-- C9 witness: vaults over salts differing at index 1 and the two-letter
plaintext `"ab"` — the ciphertexts differ at byte 1 and both vaults
recover `"ab"`. -/
theorem c9_witness :
    ∃ w1 w2,
      store (mkVault testHash 16 "pw" (some exampleSalt) false []).2 "n" "ab" false =
        .ok w1 ∧
      store (mkVault testHash 16 "pw" (some c9OtherSalt) false []).2 "n" "ab" false =
        .ok w2 ∧
      dictGet w1.mapping "n" ≠ dictGet w2.mapping "n" ∧
      get w1 "n" = .ok "ab" ∧ get w2 "n" = .ok "ab" :=
  c9_salt_divergence testHash 16 "pw" "n" "ab" exampleSalt c9OtherSalt [] [] 1
    (by decide) (by decide) (by decide) (by decide) (by decide) (by decide)
    (by decide) (by decide) (by decide) (by decide) (by decide)

/-- `exampleVault` after `store("x", "Ã©")` — an entry whose ciphertext
decrypts to the non-ASCII string `"é"`. -/
def c2Vault : Vault :=
  match store exampleVault "x" "Ã©" false with
  | .ok v => v
  | .error _ => exampleVault

/-- C2 counterexample: a vault holding an entry whose plaintext (under
`get`) is the non-ASCII `"é"`.  Rotation with the correct old password
*succeeds*, but afterwards the entry no longer decrypts at all: rotation
re-encrypts the decrypted plaintext one byte per character, turning the
two-byte UTF-8 ciphertext into a single byte `0xE9` that no longer
decodes.  So "every previously stored credential still decrypts (via
get) to its unchanged plaintext" is false as stated. -/
theorem c2_counterexample :
    get c2Vault "x" = .ok "é" ∧
    (updatePassword testHash 16 c2Vault "pw" "pw2" exampleSalt).1 = .ok () ∧
    get (updatePassword testHash 16 c2Vault "pw" "pw2" exampleSalt).2 "x" =
      .error Err.corrupt := by decide

/-- C2 (amended): for every vault satisfying the reachability invariants
(unique dict keys, both metadata entries present) whose non-metadata
entries each decrypt under the current key to non-empty ASCII text, a
`rotatePassword` call whose old password digest matches the stored
`PasswordDigest` succeeds, keeps the entry-name list (and hence the
entry count) exactly the same, and leaves every previously stored
credential decrypting (via `get`) to its unchanged plaintext; only the
ciphertext bytes and the two metadata entries change. -/
theorem c2_rotation_preserves (H : String → String) (klen : Nat) (v : Vault)
    (oldPassword newPassword : String) (freshSalt : Bytes)
    (hnodup : (dictKeys v.mapping).Nodup)
    (hcm : "__cm_password__" ∈ dictKeys v.mapping)
    (hsaltm : "__salt__" ∈ dictKeys v.mapping)
    (hmatch : dictGet v.mapping "__cm_password__" = some (strBytes (H oldPassword)))
    (hentries : ∀ k ∈ dictKeys v.mapping, ¬isMeta k →
        ∃ s, get v k = .ok s ∧ s.length ≠ 0 ∧ ∀ c ∈ s.toList, c.toNat < 0x80)
    (hH : ∀ b ∈ strBytes (H newPassword), b < 0x100)
    (hfresh : ∀ b ∈ freshSalt, b < 0x100) :
    (updatePassword H klen v oldPassword newPassword freshSalt).1 = .ok () ∧
    dictKeys (updatePassword H klen v oldPassword newPassword freshSalt).2.mapping =
      dictKeys v.mapping ∧
    ∀ k, ¬isMeta k → k ∈ dictKeys v.mapping →
      get (updatePassword H klen v oldPassword newPassword freshSalt).2 k =
        get v k := by
  have hkeybytes : ∀ b ∈ mkKey klen (strBytes (if false then newPassword else H newPassword))
      (resolveSalt none freshSalt), b < 0x100 := by
    exact mkKey_lt_256 hH hfresh
  have hspec := updateEncryptions_spec H klen v newPassword none false freshSalt
    hnodup hcm hsaltm hentries hkeybytes
  have hup : updatePassword H klen v oldPassword newPassword freshSalt =
      updateEncryptions H klen v newPassword none false freshSalt := by
    simp only [updatePassword, hmatch]
    rw [if_neg (fun hh => hh rfl)]
  rw [hup]
  exact ⟨hspec.1, hspec.2.2.1, hspec.2.2.2.2.2⟩

/-- C2 witness: rotating `exampleStoredVault` (one ASCII credential)
with the correct old password; the entry list is preserved and the
credential still reads `"secretA"`. -/
theorem c2_witness :
    (updatePassword testHash 16 exampleStoredVault "pw" "q" exampleSalt).1 = .ok () ∧
    dictKeys (updatePassword testHash 16 exampleStoredVault "pw" "q"
      exampleSalt).2.mapping = dictKeys exampleStoredVault.mapping ∧
    ∀ k, ¬isMeta k → k ∈ dictKeys exampleStoredVault.mapping →
      get (updatePassword testHash 16 exampleStoredVault "pw" "q" exampleSalt).2 k =
        get exampleStoredVault k := by
  apply c2_rotation_preserves testHash 16 exampleStoredVault "pw" "q" exampleSalt
  · decide
  · decide
  · decide
  · decide
  · intro k hk hnm
    have hklist : dictKeys exampleStoredVault.mapping =
        ["__cm_password__", "__salt__", "n"] := by decide
    rw [hklist] at hk
    rcases List.mem_cons.1 hk with h | hk
    · exact absurd (Or.inl h) hnm
    · rcases List.mem_cons.1 hk with h | hk
      · exact absurd (Or.inr h) hnm
      · rcases List.mem_cons.1 hk with h | hk
        · subst h
          exact ⟨"secretA", by decide, by decide, by decide⟩
        · cases hk
  · decide
  · decide

/-- C7: whenever the vault's key is computed — at construction
(`mkVault`), rotation (`update_password`) or `load` — the derived key has
exactly `keyLength` bytes and satisfies
`key[i] = digest[i mod 64] ^ salt[i mod len(salt)]`, where `digest` is
the 64-byte ASCII encoding of the SHA-256 hex digest of the password in
force (for `load`, the stored digest equals the digest of the supplied
password, which the authorization check guarantees). -/
theorem c7_derived_key_formula (H : String → String) (klen : Nat) :
    (∀ (p : String) (saltArg : Option Bytes) (fresh : Bytes),
      IsHexDigest (H p) →
      ((mkVault H klen p saltArg false fresh).2.key.length = klen ∧
       ∀ i < klen, (mkVault H klen p saltArg false fresh).2.key.getD i 0 =
         (strBytes (H p)).getD (i % 64) 0 ^^^
         (resolveSalt saltArg fresh).getD
           (i % (resolveSalt saltArg fresh).length) 0)) ∧
    (∀ (v r2 : Vault) (old new : String) (fresh : Bytes),
      IsHexDigest (H new) →
      updatePassword H klen v old new fresh = (.ok (), r2) →
      (r2.key.length = klen ∧
       ∀ i < klen, r2.key.getD i 0 =
         (strBytes (H new)).getD (i % 64) 0 ^^^ fresh.getD (i % fresh.length) 0)) ∧
    (∀ (fn : String) (j : JValue) (pw : String) (fresh : Bytes) (v2 : Vault),
      IsHexDigest (H pw) →
      load H klen fn (some j) pw fresh = .ok v2 →
      ∃ saltBytes, dictGet v2.mapping "__salt__" = some saltBytes ∧
        v2.key.length = klen ∧
        ∀ i < klen, v2.key.getD i 0 =
          (strBytes (H pw)).getD (i % 64) 0 ^^^
          (resolveSalt (some saltBytes) fresh).getD
            (i % (resolveSalt (some saltBytes) fresh).length) 0) := by
  refine ⟨?_, ?_, ?_⟩
  · intro p saltArg fresh hH
    have h64 : (strBytes (H p)).length = 64 := by
      rw [strBytes_length]
      exact hH.1
    have hk : (mkVault H klen p saltArg false fresh).2.key =
        mkKey klen (strBytes (H p)) (resolveSalt saltArg fresh) := by
      rw [mkVault_eq]
      rfl
    rw [hk]
    refine ⟨length_mkKey _ _ _, ?_⟩
    intro i hi
    rw [getD_mkKey _ _ hi, h64]
  · intro v r2 old new fresh hH hup
    have h64 : (strBytes (H new)).length = 64 := by
      rw [strBytes_length]
      exact hH.1
    have hk := updatePassword_ok_inversion hup
    rw [hk]
    refine ⟨length_mkKey _ _ _, ?_⟩
    intro i hi
    rw [getD_mkKey _ _ hi, h64]
  · intro fn j pw fresh v2 hH hload
    have h64 : (strBytes (H pw)).length = 64 := by
      rw [strBytes_length]
      exact hH.1
    obtain ⟨entries, mappings, saltBytes, -, -, hmapeq, -, hsaltv, hkeyv⟩ :=
      load_ok_inversion (strBytes_hex_lt hH) hload
    refine ⟨saltBytes, by rw [hmapeq]; exact hsaltv, ?_, ?_⟩
    · rw [hkeyv]
      exact length_mkKey _ _ _
    · intro i hi
      rw [hkeyv, getD_mkKey _ _ hi, h64]

/-- The vault after a successful rotation of `exampleStoredVault`. -/
def c7RotResult : Vault :=
  (updatePassword testHash 16 exampleStoredVault "pw" "q" exampleSalt).2

/-- The JSON document `save` writes for `exampleStoredVault`. -/
def c7SavedFile : JValue :=
  match save exampleStoredVault "f" with
  | .ok j => j
  | .error _ => JValue.jnull

/-- The vault `load` reconstructs from that document. -/
def c7Loaded : Vault :=
  match load testHash 16 "f" (some c7SavedFile) "pw" [] with
  | .ok v => v
  | .error _ => exampleVault

/-- C7 witness: the key formula checked on a concrete construction, a
concrete successful rotation and a concrete successful load. -/
theorem c7_witness :
    ((mkVault testHash 16 "pw" (some exampleSalt) false []).2.key.length = 16 ∧
     ∀ i < 16, (mkVault testHash 16 "pw" (some exampleSalt) false []).2.key.getD i 0 =
       (strBytes (testHash "pw")).getD (i % 64) 0 ^^^
       (resolveSalt (some exampleSalt) []).getD
         (i % (resolveSalt (some exampleSalt) []).length) 0) ∧
    (c7RotResult.key.length = 16 ∧
     ∀ i < 16, c7RotResult.key.getD i 0 =
       (strBytes (testHash "q")).getD (i % 64) 0 ^^^
       exampleSalt.getD (i % exampleSalt.length) 0) ∧
    (∃ saltBytes, dictGet c7Loaded.mapping "__salt__" = some saltBytes ∧
      c7Loaded.key.length = 16 ∧
      ∀ i < 16, c7Loaded.key.getD i 0 =
        (strBytes (testHash "pw")).getD (i % 64) 0 ^^^
        (resolveSalt (some saltBytes) []).getD
          (i % (resolveSalt (some saltBytes) []).length) 0) := by
  have h := c7_derived_key_formula testHash 16
  exact ⟨h.1 "pw" (some exampleSalt) [] (testHash_isHexDigest "pw"),
    h.2.1 exampleStoredVault c7RotResult "pw" "q" exampleSalt
      (testHash_isHexDigest "q") (by decide),
    h.2.2 "f" c7SavedFile "pw" [] c7Loaded (testHash_isHexDigest "pw") (by decide)⟩

/-- C4: `save(path)` followed by `load(path, password)` with the password
the vault currently operates under returns a vault whose `get` agrees
with the original's on every name (in fact the reconstructed vault
equals the original), under the reachability invariants of a real vault:
the metadata entries hold the current digest and a non-empty salt, all
stored values are byte sequences, and the key is the one derived from
that digest and salt. -/
theorem c4_save_load_roundtrip (H : String → String) (klen : Nat) (v : Vault)
    (password fn : String) (fresh : Bytes) (saltB : Bytes) (jv : JValue)
    (hH : IsHexDigest (H password))
    (hdg : dictGet v.mapping "__cm_password__" = some (strBytes (H password)))
    (hsb : dictGet v.mapping "__salt__" = some saltB)
    (hsbne : saltB.length ≠ 0)
    (hvals : ∀ kv ∈ v.mapping, ∀ b ∈ kv.2, b < 0x100)
    (hkey : v.key = mkKey klen (strBytes (H password)) saltB)
    (hsave : save v fn = .ok jv) :
    ∃ w, load H klen fn (some jv) password fresh = .ok w ∧
      ∀ name, get w name = get v name := by
  have hfn : fn.length ≠ 0 := by
    intro h0
    unfold save at hsave
    rw [if_pos h0] at hsave
    cases hsave
  have hjv : jv = JValue.jobj
      (v.mapping.map (fun kv => (kv.1, JValue.jstr (b64Encode kv.2)))) := by
    unfold save at hsave
    rw [if_neg hfn] at hsave
    cases hsave
    rfl
  subst hjv
  have hcm' : dictGet (v.mapping.map (fun kv => (kv.1, JValue.jstr (b64Encode kv.2))))
      "__cm_password__" = some (JValue.jstr (b64Encode (strBytes (H password)))) := by
    have h := dictGet_map (fun bs => JValue.jstr (b64Encode bs)) v.mapping "__cm_password__"
    rw [hdg] at h
    exact h
  have hsalt' : dictGet (v.mapping.map (fun kv => (kv.1, JValue.jstr (b64Encode kv.2))))
      "__salt__" = some (JValue.jstr (b64Encode saltB)) := by
    have h := dictGet_map (fun bs => JValue.jstr (b64Encode bs)) v.mapping "__salt__"
    rw [hsb] at h
    exact h
  have hutf : utf8DecodeList (strBytes (H password)) =
      some ((strBytes (H password)).map Char.ofNat) :=
    utf8DecodeList_ascii (strBytes_hex_lt hH)
  have hload : load H klen fn (some (JValue.jobj
      (v.mapping.map (fun kv => (kv.1, JValue.jstr (b64Encode kv.2)))))) password fresh =
      .ok v := by
    simp only [load, hfn, if_false, hcm', hsalt', Option.isNone_some, Bool.or_self,
      Bool.false_eq_true, decodeEntries_map_b64 v.mapping hvals, hdg, hsb, hutf,
      mkVault_eq, ne_eq, not_true_eq_false, if_false, if_true]
    rw [strBytes_mk_map_ofNat (strBytes_hex_lt hH), resolveSalt_some hsbne, ← hkey]
  exact ⟨v, hload, fun name => rfl⟩

/-- C4 witness: saving and reloading `exampleStoredVault` with password
`"pw"` reproduces a vault whose `get` agrees everywhere. -/
theorem c4_witness :
    ∃ w, load testHash 16 "f" (some c7SavedFile) "pw" [] = .ok w ∧
      ∀ name, get w name = get exampleStoredVault name := by
  apply c4_save_load_roundtrip testHash 16 exampleStoredVault "pw" "f" []
    exampleSalt c7SavedFile (testHash_isHexDigest "pw")
  · decide
  · decide
  · decide
  · decide
  · decide
  · rfl

/-- C5 counterexample: the parsed content `{"foo": 5}` is *not* a flat
name-to-text mapping (its value is a number), so the claim requires the
structural error — but the code only checks `isinstance(data, dict)`,
which passes, and fails at the *missing-field* check instead.  Non-text
values would only be detected later, at the base64-decoding step, which
runs after the missing-field check. -/
theorem c5_counterexample :
    load testHash 16 "f" (some (JValue.jobj [("foo", JValue.jnum 5)])) "pw" [] =
      .error Err.missingField := by decide

/-- C5 (amended): `load` discriminates its failures in source order: a
missing file gives the not-found error (a distinct exception class); a
parsed content that is not a mapping (a JSON object) gives the
structural error; a mapping missing either `__cm_password__` or
`__salt__` gives the missing-field error; and when both are present and
every value base64-decodes, a password whose digest bytes differ from
the stored digest gives the authorization error.  (Values that are not
text are only rejected at the decoding step, between the missing-field
and authorization checks.) -/
theorem c5_load_error_discrimination (H : String → String) (klen : Nat)
    (fn pw : String) (fresh : Bytes) (hfn : fn.length ≠ 0) :
    (load H klen fn none pw fresh = .error .fileNotFound) ∧
    (∀ jv : JValue, jv.isObj = false →
      load H klen fn (some jv) pw fresh = .error .typeErrStruct) ∧
    (∀ entries, (dictGet entries "__cm_password__" = none ∨
        dictGet entries "__salt__" = none) →
      load H klen fn (some (JValue.jobj entries)) pw fresh = .error .missingField) ∧
    (∀ entries mappings stored,
      (dictGet entries "__cm_password__").isSome →
      (dictGet entries "__salt__").isSome →
      decodeEntries entries = .ok mappings →
      dictGet mappings "__cm_password__" = some stored →
      stored ≠ strBytes (H pw) →
      load H klen fn (some (JValue.jobj entries)) pw fresh =
        .error .unauthorized) := by
  refine ⟨?_, ?_, ?_, ?_⟩
  · simp only [load, hfn, if_false]
  · intro jv hobj
    cases jv with
    | jobj entries => cases hobj
    | jnull => simp only [load, hfn, if_false]
    | jbool b => simp only [load, hfn, if_false]
    | jnum n => simp only [load, hfn, if_false]
    | jstr s => simp only [load, hfn, if_false]
    | jarr xs => simp only [load, hfn, if_false]
  · intro entries hmiss
    simp only [load, hfn, if_false]
    rw [if_pos ?_]
    rcases hmiss with h | h
    · rw [h]
      rfl
    · rw [h]
      simp
  · intro entries mappings stored hcm hsalt hdec hstored hne
    simp only [load, hfn, if_false]
    rw [if_neg ?_, hdec]
    · simp only [hstored]
      rw [if_pos hne]
    · rw [Option.isSome_iff_ne_none] at hcm hsalt
      simp [Option.isNone_iff_eq_none, hcm, hsalt]

/-- C5 witness: each failure exercised at a concrete input — no file, an
array instead of an object, an object missing the metadata, and a stored
digest that does not match the supplied password. -/
theorem c5_witness :
    load testHash 16 "f" none "pw" [] = .error .fileNotFound ∧
    load testHash 16 "f" (some (JValue.jarr [])) "pw" [] = .error .typeErrStruct ∧
    load testHash 16 "f" (some (JValue.jobj [("a", JValue.jstr "AA==")])) "pw" [] =
      .error .missingField ∧
    load testHash 16 "f" (some (JValue.jobj
      [("__cm_password__", JValue.jstr (b64Encode [1])),
       ("__salt__", JValue.jstr (b64Encode [2]))])) "pw" [] =
      .error .unauthorized := by
  have h := c5_load_error_discrimination testHash 16 "f" "pw" [] (by decide)
  refine ⟨h.1, h.2.1 (JValue.jarr []) rfl, ?_, ?_⟩
  · exact h.2.2.1 [("a", JValue.jstr "AA==")] (Or.inl rfl)
  · exact h.2.2.2 [("__cm_password__", JValue.jstr (b64Encode [1])),
      ("__salt__", JValue.jstr (b64Encode [2]))] [("__cm_password__", [1]),
      ("__salt__", [2])] [1] (by decide) (by decide) (by decide) (by decide) (by decide)

end CredMgr
